import Mathlib

/-
Verification of the pilcrow static site generator core
(src/pilcrow/util.py, src/pilcrow/pages.py, src/pilcrow/core.py).

The Python code is shallowly embedded: pure helpers become Lean functions,
the mutable PageDatabase becomes explicit state passing with Except for the
fatal `util.die` path, and Python datetimes are modelled as a (year,
timestamp) record since the code only ever consumes `dt.year` and
`time.mktime(dt.timetuple())`.  Page objects are dict-like records; the
fields a claim never mentions (title, template, month_name, modified,
entries) are omitted.  Tag objects are aliased between the database's tag
map and its page map in the source; the model keeps the single authoritative
copy in the page list and lets the tag map store the page id (which
Tag.__init__ makes equal to the tag name), so a mutation of a Tag page is
visible from both maps exactly as in the source.
-/

namespace Pilcrow

/-! ## util.py -/

/-- Character class kept by the regex in util.alphanum: [A-Za-z0-9]. -/
def keepAlnum (c : Char) : Bool := c.isAlpha || c.isDigit

/-- util.alphanum = lambda s: re.sub('[^A-Za-z0-9]', '', s). -/
def alphanum (s : String) : String := String.mk (s.data.filter keepAlnum)

/-- util.norm_tags, on the branch where the argument is already a set of
strings (not a string): set(filter(bool, (alphanum(tag) for tag in tags))).
Truthiness of a Python string is non-emptiness. -/
def norm_tags (tags : Finset String) : Finset String :=
  (tags.image alphanum).filter (fun t => t ≠ "")

/-- util.timestamp = lambda dt: dt and int(time.mktime(dt.timetuple())) or 0.
A datetime is modelled by its year and its mktime value; None maps to 0
(when mktime itself yields the falsy 0 the Python expression also yields 0,
so the model agrees). -/
structure Date where
  year : Int
  ts : Int
deriving DecidableEq, Repr

def timestamp : Option Date → Int
  | none => 0
  | some d => d.ts

/-! ## pages.py: Page records -/

inductive Kind where
  | content
  | tagK
  | archive
deriving DecidableEq, Repr

/-- A Page object (pages.py).  `tags` holds the tag names of a Content page
(the keys of its tag set before PageDatabase.add, and of its name-to-Tag
mapping afterwards: add replaces the set by a dict with the same keys).
`name`/`tagged` are the Tag-page fields; `tagged` holds the keys of the
Tag's id-to-page dict.  `prevpost`/`nextpost` store the id of the referenced
page (ids are unique in a database, so an id reference determines the
object). -/
structure Page where
  id : String
  kind : Kind
  date : Option Date
  posted : Option Date
  tags : List String
  name : String
  tagged : List String
  prevpost : Option String
  nextpost : Option String
deriving DecidableEq, Repr

/-- A Content page as produced by Content.__init__ (metadata part). -/
def mkContent (id : String) (date posted : Option Date) (tags : List String) : Page :=
  ⟨id, .content, date, posted, tags, "", [], none, none⟩

/-- Tag.__init__(site, tag): Page.__init__(self, site, tag, ..., tagged={})
with self.name = tag, so a fresh Tag page has id = name and empty tagged. -/
def mkTag (n : String) : Page :=
  ⟨n, .tagK, none, none, [], n, [], none, none⟩

/-- Page.sortkey_origin = lambda self: (timestamp(self.date), self.id).
String comparison is by code points, so the id is kept as its character
list. -/
def sortkey_origin (p : Page) : Int × List Char := (timestamp p.date, p.id.data)

/-- self.posted or self.date (a datetime is never falsy). -/
def postedOr (p : Page) : Option Date :=
  match p.posted with
  | some d => some d
  | none => p.date

/-- Page.sortkey_posted = lambda self: (timestamp(self.posted or self.date), self.id). -/
def sortkey_posted (p : Page) : Int × List Char := (timestamp (postedOr p), p.id.data)

/-- Python string comparison: lexicographic on code points. -/
def charsLe : List Char → List Char → Bool
  | [], _ => true
  | _ :: _, [] => false
  | a :: as, b :: bs => if a < b then true else if b < a then false else charsLe as bs

/-- Python tuple comparison on an (int, str) sort key. -/
def keyLe (a b : Int × List Char) : Bool :=
  if a.1 < b.1 then true else if b.1 < a.1 then false else charsLe a.2 b.2

/-! ## core.py: PageDatabase -/

/-- The id-to-Page dict self.pages, in insertion order. -/
def plookup (l : List Page) (k : String) : Option Page :=
  l.find? (fun p => decide (p.id = k))

/-- Lookup in the name-to-Tag dict self.tags (the value is the id of the
Tag page, which carries the object). -/
def alookup : List (String × String) → String → Option String
  | [], _ => none
  | (k, v) :: l, k2 => if k = k2 then some v else alookup l k2

/-- Dict assignment self.tags[name] = page: replace in place or append. -/
def ainsert : List (String × String) → String → String → List (String × String)
  | [], k, v => [(k, v)]
  | (k1, v1) :: l, k, v => if k1 = k then (k, v) :: l else (k1, v1) :: ainsert l k v

/-- Tag.add(self, page): self['tagged'][page.id] = page (keyed by id, so a
present key is left in place). -/
def tagAddTagged (t : Page) (pid : String) : Page :=
  if pid ∈ t.tagged then t else { t with tagged := t.tagged ++ [pid] }

structure DB where
  pages : List Page
  tags : List (String × String)
deriving DecidableEq, Repr

def DB.empty : DB := ⟨[], []⟩

/-- The in-place mutation of the Tag object stored under id tid, seen from
the page map. -/
def tagUpd (tid pid : String) (q : Page) : Page :=
  if q.id = tid then tagAddTagged q pid else q

/-- tag = self.tags[tag_name]; tag.add(page) — mutates the Tag object in
place, which the model renders as an update of the page stored under the
tag's id. -/
def DB.tagAdd (db : DB) (n pid : String) : DB :=
  match alookup db.tags n with
  | none => db
  | some tid => { db with pages := db.pages.map (tagUpd tid pid) }

/-- PageDatabase.add restricted to a Tag page: the duplicate-id check, the
insertion into self.pages, and the registration self.tags[page.name] =
page. -/
def DB.insertTag (db : DB) (t : Page) : Except String DB :=
  if (plookup db.pages t.id).isSome then .error ("duplicate page id: " ++ t.id)
  else .ok { pages := db.pages ++ [t], tags := ainsert db.tags t.name t.id }

/-- The loop body of PageDatabase.add over a Content page's tag names:
resolve or lazily create the Tag page (creation goes through add, hence
through the duplicate-id check), then tag.add(page).  The final
page['tags'] = page_tags assignment replaces the tag set by a dict with the
same keys whose values are the shared Tag objects; the model keeps the keys
(the `tags` field) and recovers the values through the tag map. -/
def DB.addTags (db : DB) (pid : String) : List String → Except String DB
  | [] => .ok db
  | n :: rest =>
    if (alookup db.tags n).isSome then
      DB.addTags (db.tagAdd n pid) pid rest
    else
      match db.insertTag (mkTag n) with
      | .error e => .error e
      | .ok db2 => DB.addTags (db2.tagAdd n pid) pid rest

/-- PageDatabase.add.  util.die halts the build: modelled as Except.error.
Exactly the Content class carries a 'tags' key, so the tag loop runs for
content pages only; Archive pages take the bare insertion path. -/
def DB.add (db : DB) (p : Page) : Except String DB :=
  if p.kind = .tagK then db.insertTag p
  else if (plookup db.pages p.id).isSome then .error ("duplicate page id: " ++ p.id)
  else
    let db1 : DB := { db with pages := db.pages ++ [p] }
    if p.kind = .content then DB.addTags db1 p.id p.tags else .ok db1

/-- A sequence of PageDatabase.add calls, halting at the first fatal error. -/
def DB.addAll : DB → List Page → Except String DB
  | db, [] => .ok db
  | db, p :: ps =>
    match DB.add db p with
    | .error e => .error e
    | .ok db2 => DB.addAll db2 ps

/-- Pages the source can actually pass to PageDatabase.add: a Tag argument
is always a fresh Tag.__init__ result (id = name, no tags, empty tagged),
Archive pages never carry a date or a tags key, and a fresh Content page
has an empty tagged dict. -/
def WF (p : Page) : Prop :=
  (p.kind = .tagK → p = mkTag p.name)
  ∧ (p.kind = .archive → p.date = none ∧ p.tags = [])
  ∧ (p.kind = .content → p.tagged = [])

instance (p : Page) : Decidable (WF p) := by
  unfold WF; infer_instance

/-- The bidirectional link the index maintains for a content page id and a
tag name: the tag map binds the name to the name itself (the Tag page's
id), the page map holds the Tag page under that id, and its tagged dict
contains the content page's id. -/
def Dtarget (db : DB) (pid n : String) : Prop :=
  ∃ t, plookup db.pages n = some t ∧ t.kind = Kind.tagK ∧ t.name = n
    ∧ pid ∈ t.tagged ∧ alookup db.tags n = some n

/-- Structural invariants of the PageDatabase state, minus the
content-to-tag direction (which is temporarily broken for the page being
processed inside add's tag loop). -/
structure Inv0 (db : DB) : Prop where
  nodup : (db.pages.map Page.id).Nodup
  tagsNodup : (db.tags.map Prod.fst).Nodup
  tagmap : ∀ n tid, alookup db.tags n = some tid →
    tid = n ∧ ∃ t, plookup db.pages n = some t ∧ t.kind = Kind.tagK ∧ t.name = n
      ∧ t.tags = [] ∧ t.date = none
  tagpage : ∀ t, t ∈ db.pages → t.kind = Kind.tagK →
    t.id = t.name ∧ alookup db.tags t.name = some t.id
  bwd : ∀ t, t ∈ db.pages → t.kind = Kind.tagK → ∀ pid, pid ∈ t.tagged →
    ∃ p, plookup db.pages pid = some p ∧ p.kind = Kind.content ∧ t.name ∈ p.tags
  dated : ∀ p, p ∈ db.pages → p.date.isSome = true → p.kind = Kind.content

/-- Full invariant: Inv0 plus bidirectional consistency for every content
page. -/
def Inv (db : DB) : Prop :=
  Inv0 db ∧ ∀ p, p ∈ db.pages → p.kind = Kind.content → ∀ n, n ∈ p.tags → Dtarget db p.id n

/-! ## core.py: Pilcrow.join_url and Page.url -/

/-- One step of re.sub('//+', '/', url): emit a slash only when the previous
kept character was not one. -/
def collapseAux : List Char → Bool → List Char
  | [], _ => []
  | c :: rest, prevSlash =>
    if c = '/' then
      if prevSlash then collapseAux rest true else '/' :: collapseAux rest true
    else c :: collapseAux rest false

/-- '/'.join of the truthy parts. -/
def joinParts : List String → List Char
  | [] => []
  | [s] => s.data
  | s :: rest => s.data ++ '/' :: joinParts rest

/-- startsWith pat l: pat is an initial segment of l. -/
def startsWith : List Char → List Char → Bool
  | [], _ => true
  | _ :: _, [] => false
  | a :: as, b :: bs => a = b && startsWith as bs

def endsWithC (l suf : List Char) : Bool := startsWith suf.reverse l.reverse

/-- Pilcrow.join_url(*parts, ext=...): ext = (ext and not clean_urls) and
'.html' or ''; collapse repeated slashes in the joined truthy parts; strip
a trailing ext before re-appending it. -/
def joinUrl (cleanUrls : Bool) (ext : Bool) (parts : List String) : String :=
  let e : List Char := if ext && !cleanUrls then ".html".data else []
  let url : List Char := collapseAux (joinParts (parts.filter (fun s => s ≠ ""))) false
  let url2 : List Char := if e ≠ [] && endsWithC url e then url.take (url.length - e.length) else url
  String.mk (url2 ++ e)

/-- Page.url: self._site.join_url(root, id != 'index' and id).  The Python
expression yields False for the id "index", and falsy parts are dropped by
join_url, which the model renders as the empty string. -/
def pageUrl (cleanUrls : Bool) (root id : String) : String :=
  joinUrl cleanUrls true [root, if id = "index" then "" else id]

/-! ## pages.py: Content summary extraction

Content.SUMMARY = re.compile('(<summary>)(.*?)(</summary>)', re.DOTALL) and
self['content'] = markdown(self.SUMMARY.sub(_summary, body).strip()), where
the _summary callback stores NORM['summary'] of the trimmed group(2) into
self['summary'] and returns the trimmed group(2) as the replacement text.
re.sub matches the leftmost occurrence of "<summary>" followed by the
closest later "</summary>" (non-greedy, DOTALL), replaces each match in
turn and continues scanning after it; the callback runs once per match, so
the last match determines the summary field.  markdown and the
BeautifulSoup plain-text extraction are external pure functions and stay
abstract (parameters md and pt). -/

def openTag : List Char := "<summary>".data

def closeTag : List Char := "</summary>".data

/-- Split at the leftmost occurrence of pat: some (a, b) with
s = a ++ pat ++ b and no occurrence starting inside a. -/
def splitFirst (pat : List Char) : List Char → Option (List Char × List Char)
  | [] => if pat.isEmpty then some ([], []) else none
  | c :: rest =>
    if startsWith pat (c :: rest) then some ([], (c :: rest).drop pat.length)
    else
      match splitFirst pat rest with
      | some (pre, post) => some (c :: pre, post)
      | none => none

/-- Python str.strip(): whitespace removed from both ends. -/
def trimChars (l : List Char) : List Char :=
  ((l.dropWhile Char.isWhitespace).reverse.dropWhile Char.isWhitespace).reverse

/-- The regex substitution pass, returning the substituted body and (when a
match exists) the trimmed inner text of the last match.  Structural fuel
(one unit per match) keeps the recursion structural; body.length units are
always enough because every match consumes at least the two tags. -/
def subSummaryF : Nat → List Char → List Char × Option (List Char)
  | 0, s => (s, none)
  | fuel + 1, s =>
    match splitFirst openTag s with
    | none => (s, none)
    | some (pre, rest) =>
      match splitFirst closeTag rest with
      | none => (s, none)
      | some (inner, post) =>
        let r := subSummaryF fuel post
        (pre ++ trimChars inner ++ r.1, some (r.2.getD (trimChars inner)))

def subSummary (s : List Char) : List Char × Option (List Char) := subSummaryF s.length s

/-- The string handed to markdown for the content field:
self.SUMMARY.sub(_summary, body).strip(). -/
def contentSource (body : String) : String := String.mk (trimChars (subSummary body.data).1)

/-- self['content'] for an abstract markdown converter md. -/
def contentOf (md : String → String) (body : String) : String := md (contentSource body)

/-- self['summary']: the empty string when no region matches (the
constructor initializes summary=''), else NORM['summary'] of the trimmed
inner text of the last match, i.e. plain-text extraction (pt) of the
markdown conversion (md). -/
def summaryOf (md pt : String → String) (body : String) : String :=
  match (subSummary body.data).2 with
  | none => ""
  | some inner => pt (md (String.mk inner))

/-- Modelled from the claim's words, for comparison only: the entire
matched region (opening tag, inner text, closing tag) deleted from the
body. -/
def removeSummaryF : Nat → List Char → List Char
  | 0, s => s
  | fuel + 1, s =>
    match splitFirst openTag s with
    | none => s
    | some (pre, rest) =>
      match splitFirst closeTag rest with
      | none => s
      | some (_, post) => pre ++ removeSummaryF fuel post

/-- The body-before-conversion that the claim asserts: regions removed
whole, then stripped. -/
def removedSource (body : String) : String :=
  String.mk (trimChars (removeSummaryF body.data.length body.data))

/-! ## util.neighbours and the per-year linking phase of Pilcrow.build -/

def zip3 {α β γ : Type} : List α → List β → List γ → List (α × β × γ)
  | a :: as, b :: bs, c :: cs => (a, b, c) :: zip3 as bs cs
  | _, _, _ => []

/-- util.neighbours(iterable): izip([None] + L[:-1], L, L[1:] + [None]).
izip truncates to the shortest input, exactly as zip3 does. -/
def neighbours {α : Type} (l : List α) : List (Option α × α × Option α) :=
  zip3 ((none : Option α) :: l.dropLast.map some) l (l.tail.map some ++ [none])

/-- Scan form of neighbours, used only inside proofs. -/
def neighboursAux {α : Type} (prev : Option α) : List α → List (Option α × α × Option α)
  | [] => []
  | [x] => [(prev, x, none)]
  | x :: y :: rest => (prev, x, some y) :: neighboursAux (some x) (y :: rest)

/-- years = defaultdict(list); years[page.date.year].append(page) for every
dated page, in traversal order. -/
def bucketAdd (acc : List (Int × List Page)) (y : Int) (p : Page) : List (Int × List Page) :=
  match acc with
  | [] => [(y, [p])]
  | (y2, l) :: rest => if y2 = y then (y2, l ++ [p]) :: rest else (y2, l) :: bucketAdd rest y p

def groupYears (ps : List Page) : List (Int × List Page) :=
  ps.foldl (fun acc p =>
    match p.date with
    | none => acc
    | some d => bucketAdd acc d.year p) []

/-- posts = sorted(posts, key=pages.Page.sortkey_origin) in Pilcrow.build. -/
def sortedByOrigin (posts : List Page) : List Page :=
  posts.mergeSort (fun a b => keyLe (sortkey_origin a) (sortkey_origin b))

/-- The per-year loop body in Pilcrow.build: for prevpost, post, nextpost in
neighbours(posts): post['prevpost'], post['nextpost'] = prevpost, nextpost.
The source stores the neighbour page object (or None); the model records
its id, which determines the object since ids are unique. -/
def linkYear (posts : List Page) : List Page :=
  (neighbours (sortedByOrigin posts)).map (fun t =>
    { t.2.1 with prevpost := t.1.map Page.id, nextpost := t.2.2.map Page.id })

/-- PageDatabase.select(limit=None, dated=True, tag=None, chrono=False,
sortby_origin=None).  Python sorted() is a stable sort; reverse=True keeps
elements with equal keys in their original order, which a stable merge sort
under the flipped comparison reproduces exactly. -/
def DB.select (db : DB) (limit : Option Nat) (dated : Bool) (tag : Option String)
    (chrono : Bool) (sortby_origin : Option Bool) : List Page :=
  let sbo := sortby_origin.getD chrono
  let key : Page → Int × List Char := fun p => if sbo then sortkey_origin p else sortkey_posted p
  let le : Page → Page → Bool := fun a b =>
    if chrono then keyLe (key a) (key b) else keyLe (key b) (key a)
  let results := db.pages.mergeSort le
  let results :=
    if dated then
      let r := results.filter (fun p => p.date.isSome)
      match tag with
      | some t => r.filter (fun p => decide (t ∈ p.tags))
      | none => r
    else results
  match limit with
  | none => results
  | some n => results.take n

end Pilcrow

namespace Pilcrow

/-! ## Theorems -/

/-- alphanum leaves a string of [A-Za-z0-9] characters unchanged. -/
theorem alphanum_eq_self (t : String) (h : t.data.all keepAlnum) : alphanum t = t := by
  unfold alphanum
  rw [List.filter_eq_self.mpr (by simpa [List.all_eq_true] using h)]

/-- Claim C9: for every set of non-empty strings consisting only of
alphanumeric characters, norm_tags returns a set equal to the input. -/
theorem C9_norm_tags_idempotent (s : Finset String)
    (h : ∀ t ∈ s, t ≠ "" ∧ t.data.all keepAlnum) :
    norm_tags s = s := by
  unfold norm_tags
  have himg : s.image alphanum = s := by
    have : s.image alphanum = s.image id :=
      Finset.image_congr (fun t ht => alphanum_eq_self t (h t ht).2)
    rw [this, Finset.image_id]
  rw [himg]
  exact Finset.filter_true_of_mem (fun t ht => (h t ht).1)

/-- Witness for C9 at the set {"Go", "Rust"} from the spec's example. -/
theorem C9_norm_tags_idempotent_witness :
    (∀ t ∈ ({"Go", "Rust"} : Finset String), t ≠ "" ∧ t.data.all keepAlnum)
    ∧ norm_tags {"Go", "Rust"} = {"Go", "Rust"} :=
  ⟨by decide, C9_norm_tags_idempotent _ (by decide)⟩

/-- Claim C8 (code_bug evidence): with the default policy (clean_urls
false) the id "index" does not produce the root URL itself: Page.url yields
root + ".html" (here "/.html", a URL that matches no output file, the index
page being written to index.html), while under clean URLs the special case
behaves as specified. -/
theorem C8_index_url_bug :
    pageUrl false "/" "index" = "/.html"
    ∧ pageUrl true "/" "index" = "/"
    ∧ ("/.html" : String) ≠ "/" := by
  refine ⟨by decide, by decide, by decide⟩

/-- Claim C2: adding a page whose id is already a key of the page map halts
the build with a fatal error naming the colliding id; no state results, so
the previously stored page is untouched and the new page's data is never
queryable. -/
theorem C2_duplicate_id_fatal (db : DB) (p q : Page)
    (h : plookup db.pages p.id = some q) :
    DB.add db p = .error ("duplicate page id: " ++ p.id) := by
  unfold DB.add DB.insertTag
  have hs : (plookup db.pages p.id).isSome := by rw [h]; rfl
  by_cases hk : p.kind = .tagK <;> simp [hk, hs]

/-- Witness for C2: a database already holding id "a" rejects a second page
with id "a". -/
theorem C2_duplicate_id_fatal_witness :
    plookup (DB.mk [mkContent "a" none none []] []).pages (mkContent "a" none none ["x"]).id
      = (some (mkContent "a" none none []) : Option Page)
    ∧ DB.add (DB.mk [mkContent "a" none none []] []) (mkContent "a" none none ["x"])
      = Except.error ("duplicate page id: " ++ (mkContent "a" none none ["x"]).id) :=
  ⟨by decide, C2_duplicate_id_fatal _ _ (mkContent "a" none none []) (by decide)⟩

/-! ### Order of the sort keys -/

theorem charsLe_cons_iff (x y : Char) (xs ys : List Char) :
    charsLe (x :: xs) (y :: ys) = true ↔ x < y ∨ (x = y ∧ charsLe xs ys = true) := by
  by_cases h1 : x < y
  · simp [charsLe, h1]
  · by_cases h2 : y < x
    · have hne : x ≠ y := by rintro rfl; exact absurd h2 (lt_irrefl x)
      simp [charsLe, h1, h2, hne]
    · have hxy : x = y := le_antisymm (not_lt.mp h2) (not_lt.mp h1)
      subst hxy
      simp [charsLe, h1]

theorem charsLe_total (a b : List Char) : charsLe a b = true ∨ charsLe b a = true := by
  induction a generalizing b with
  | nil => left; rfl
  | cons x xs ih =>
    cases b with
    | nil => right; rfl
    | cons y ys =>
      rcases lt_trichotomy x y with h | h | h
      · left; rw [charsLe_cons_iff]; exact Or.inl h
      · rcases ih ys with h2 | h2
        · left; rw [charsLe_cons_iff]; exact Or.inr ⟨h, h2⟩
        · right; rw [charsLe_cons_iff]; exact Or.inr ⟨h.symm, h2⟩
      · right; rw [charsLe_cons_iff]; exact Or.inl h

theorem charsLe_trans (a b c : List Char) (hab : charsLe a b = true)
    (hbc : charsLe b c = true) : charsLe a c = true := by
  induction a generalizing b c with
  | nil => rfl
  | cons x xs ih =>
    cases b with
    | nil => exact absurd hab (by simp [charsLe])
    | cons y ys =>
      cases c with
      | nil => exact absurd hbc (by simp [charsLe])
      | cons z zs =>
        rw [charsLe_cons_iff] at hab hbc ⊢
        rcases hab with h1 | ⟨h1, h1r⟩
        · rcases hbc with h2 | ⟨h2, _⟩
          · exact Or.inl (lt_trans h1 h2)
          · exact Or.inl (h2 ▸ h1)
        · rcases hbc with h2 | ⟨h2, h2r⟩
          · exact Or.inl (h1 ▸ h2)
          · exact Or.inr ⟨h1.trans h2, ih ys zs h1r h2r⟩

theorem keyLe_iff (a b : Int × List Char) :
    keyLe a b = true ↔ a.1 < b.1 ∨ (a.1 = b.1 ∧ charsLe a.2 b.2 = true) := by
  unfold keyLe
  by_cases h1 : a.1 < b.1
  · simp [h1]
  · by_cases h2 : b.1 < a.1
    · have : a.1 ≠ b.1 := by intro h; rw [h] at h2; exact absurd h2 (lt_irrefl _)
      simp [h1, h2, this]
    · have h12 : a.1 = b.1 := le_antisymm (not_lt.mp h2) (not_lt.mp h1)
      simp [h1, h2, h12]

theorem keyLe_total (a b : Int × List Char) : keyLe a b = true ∨ keyLe b a = true := by
  rw [keyLe_iff, keyLe_iff]
  rcases lt_trichotomy a.1 b.1 with h | h | h
  · exact Or.inl (Or.inl h)
  · rcases charsLe_total a.2 b.2 with h2 | h2
    · exact Or.inl (Or.inr ⟨h, h2⟩)
    · exact Or.inr (Or.inr ⟨h.symm, h2⟩)
  · exact Or.inr (Or.inl h)

theorem keyLe_trans (a b c : Int × List Char) (hab : keyLe a b = true)
    (hbc : keyLe b c = true) : keyLe a c = true := by
  rw [keyLe_iff] at hab hbc ⊢
  rcases hab with h1 | ⟨h1, h1r⟩
  · rcases hbc with h2 | ⟨h2, _⟩
    · exact Or.inl (lt_trans h1 h2)
    · exact Or.inl (h2 ▸ h1)
  · rcases hbc with h2 | ⟨h2, h2r⟩
    · exact Or.inl (h1 ▸ h2)
    · exact Or.inr ⟨h1.trans h2, charsLe_trans _ _ _ h1r h2r⟩

/-! ### Unique page ids along successful add sequences -/

theorem plookup_eq_none_iff (l : List Page) (k : String) :
    plookup l k = none ↔ ∀ p ∈ l, p.id ≠ k := by
  unfold plookup
  rw [List.find?_eq_none]
  simp

theorem tagAddTagged_id (t : Page) (pid : String) : (tagAddTagged t pid).id = t.id := by
  unfold tagAddTagged
  by_cases h : pid ∈ t.tagged <;> simp [h]

theorem tagAdd_map_id (db : DB) (n pid : String) :
    (db.tagAdd n pid).pages.map Page.id = db.pages.map Page.id := by
  unfold DB.tagAdd
  cases alookup db.tags n with
  | none => rfl
  | some tid =>
    simp only [List.map_map]
    apply List.map_congr_left
    intro q _
    by_cases h : q.id = tid <;> simp [tagUpd, h, tagAddTagged_id]

theorem insertTag_ok_nodup (db db2 : DB) (t : Page)
    (hn : (db.pages.map Page.id).Nodup)
    (h : db.insertTag t = .ok db2) :
    (db2.pages.map Page.id).Nodup := by
  unfold DB.insertTag at h
  by_cases hc : (plookup db.pages t.id).isSome
  · simp [hc] at h
  · simp [hc] at h
    have hnone : plookup db.pages t.id = none := by
      cases hl : plookup db.pages t.id with
      | none => rfl
      | some q => rw [hl] at hc; exact absurd rfl hc
    rw [← h]
    simp only [List.map_append, List.map_cons, List.map_nil]
    rw [List.nodup_append]
    refine ⟨hn, List.nodup_singleton _, ?_⟩
    intro a ha hb
    simp at hb
    rcases List.mem_map.mp ha with ⟨q, hq, rfl⟩
    exact (plookup_eq_none_iff _ _ |>.mp hnone q hq) hb

theorem addTags_nodup (pid : String) (ns : List String) (db db2 : DB)
    (hn : (db.pages.map Page.id).Nodup)
    (h : DB.addTags db pid ns = .ok db2) :
    (db2.pages.map Page.id).Nodup := by
  induction ns generalizing db with
  | nil => unfold DB.addTags at h; cases h; exact hn
  | cons n rest ih =>
    unfold DB.addTags at h
    by_cases hc : (alookup db.tags n).isSome
    · simp only [hc, if_pos] at h
      exact ih _ (by rw [tagAdd_map_id]; exact hn) h
    · simp only [hc, if_neg, Bool.false_eq_true, not_false_iff] at h
      cases hins : db.insertTag (mkTag n) with
      | error e => rw [hins] at h; exact absurd h (by simp)
      | ok dbt =>
        rw [hins] at h
        exact ih _ (by rw [tagAdd_map_id]; exact insertTag_ok_nodup db dbt _ hn hins) h

theorem add_ok_nodup (db db2 : DB) (p : Page)
    (hn : (db.pages.map Page.id).Nodup)
    (h : DB.add db p = .ok db2) :
    (db2.pages.map Page.id).Nodup := by
  unfold DB.add at h
  by_cases hk : p.kind = .tagK
  · rw [if_pos hk] at h
    exact insertTag_ok_nodup db db2 p hn h
  · rw [if_neg hk] at h
    by_cases hc : (plookup db.pages p.id).isSome
    · simp [hc] at h
    · simp only [hc, if_neg, Bool.false_eq_true, not_false_iff, if_false] at h
      have hnone : plookup db.pages p.id = none := by
        cases hl : plookup db.pages p.id with
        | none => rfl
        | some q => rw [hl] at hc; exact absurd rfl hc
      have hn1 : ((db.pages ++ [p]).map Page.id).Nodup := by
        simp only [List.map_append, List.map_cons, List.map_nil]
        rw [List.nodup_append]
        refine ⟨hn, List.nodup_singleton _, ?_⟩
        intro a ha hb
        simp at hb
        rcases List.mem_map.mp ha with ⟨q, hq, rfl⟩
        exact (plookup_eq_none_iff _ _ |>.mp hnone q hq) hb
      by_cases hck : p.kind = .content
      · rw [if_pos hck] at h
        exact addTags_nodup p.id p.tags _ _ hn1 h
      · rw [if_neg hck] at h
        cases h
        exact hn1

theorem addAll_nodup (ps : List Page) (db db2 : DB)
    (hn : (db.pages.map Page.id).Nodup)
    (h : DB.addAll db ps = .ok db2) :
    (db2.pages.map Page.id).Nodup := by
  induction ps generalizing db with
  | nil => unfold DB.addAll at h; cases h; exact hn
  | cons p rest ih =>
    unfold DB.addAll at h
    cases ha : DB.add db p with
    | error e => rw [ha] at h; exact absurd h (by simp)
    | ok dbm => rw [ha] at h; exact ih _ (add_ok_nodup db dbm p hn ha) h

/-! ### Lookup toolkit for the database invariant -/

theorem plookup_append (l1 l2 : List Page) (k : String) :
    plookup (l1 ++ l2) k = (plookup l1 k).or (plookup l2 k) := by
  unfold plookup
  exact List.find?_append

theorem plookup_append_left (l1 l2 : List Page) (k : String) (q : Page)
    (h : plookup l1 k = some q) : plookup (l1 ++ l2) k = some q := by
  rw [plookup_append, h]
  rfl

theorem plookup_append_right (l1 l2 : List Page) (k : String)
    (h : plookup l1 k = none) : plookup (l1 ++ l2) k = plookup l2 k := by
  rw [plookup_append, h]
  rfl

theorem plookup_singleton (t : Page) (k : String) :
    plookup [t] k = if t.id = k then some t else none := by
  by_cases h : t.id = k <;> simp [plookup, List.find?, h]

theorem plookup_mem (l : List Page) (k : String) (q : Page) (h : plookup l k = some q) :
    q ∈ l ∧ q.id = k := by
  unfold plookup at h
  have h2 := List.find?_some h
  exact ⟨List.mem_of_find?_eq_some h, of_decide_eq_true h2⟩

theorem plookup_of_mem (l : List Page) (p : Page) (hn : (l.map Page.id).Nodup)
    (hp : p ∈ l) : plookup l p.id = some p := by
  induction l with
  | nil => cases hp
  | cons q rest ih =>
    simp only [List.map_cons, List.nodup_cons] at hn
    rcases List.mem_cons.mp hp with rfl | hp2
    · simp [plookup, List.find?]
    · have hne : q.id ≠ p.id := by
        intro he
        exact hn.1 (he ▸ List.mem_map_of_mem Page.id hp2)
      have hrest := ih hn.2 hp2
      simpa [plookup, List.find?, hne] using hrest

theorem alookup_ainsert (l : List (String × String)) (k v x : String) :
    alookup (ainsert l k v) x = if k = x then some v else alookup l x := by
  induction l with
  | nil => simp [ainsert, alookup]
  | cons hd rest ih =>
    obtain ⟨k1, v1⟩ := hd
    by_cases h1 : k1 = k
    · subst h1
      by_cases h2 : k1 = x <;> simp [ainsert, alookup, h2]
    · by_cases h2 : k1 = x
      · subst h2
        have hkx : ¬(k = k1) := fun he => h1 he.symm
        simp [ainsert, alookup, h1, hkx]
      · simp [ainsert, alookup, h1, h2, ih]

theorem ainsert_keys_mem (l : List (String × String)) (k v x : String) :
    x ∈ (ainsert l k v).map Prod.fst ↔ x ∈ l.map Prod.fst ∨ x = k := by
  induction l with
  | nil => simp [ainsert]
  | cons hd rest ih =>
    obtain ⟨k1, v1⟩ := hd
    by_cases h1 : k1 = k
    · subst h1
      simp only [ainsert, eq_self_iff_true, if_true, List.map_cons, List.mem_cons]
      tauto
    · simp only [ainsert, h1, if_false, List.map_cons, List.mem_cons, ih]
      tauto

theorem ainsert_keys_nodup (l : List (String × String)) (k v : String)
    (h : (l.map Prod.fst).Nodup) : ((ainsert l k v).map Prod.fst).Nodup := by
  induction l with
  | nil => simp [ainsert]
  | cons hd rest ih =>
    obtain ⟨k1, v1⟩ := hd
    simp only [List.map_cons, List.nodup_cons] at h
    by_cases h1 : k1 = k
    · subst h1
      simp only [ainsert, eq_self_iff_true, if_true, List.map_cons, List.nodup_cons]
      exact ⟨h.1, h.2⟩
    · simp only [ainsert, h1, if_false, List.map_cons, List.nodup_cons]
      refine ⟨?_, ih h.2⟩
      intro hmem
      rcases (ainsert_keys_mem rest k v k1).mp hmem with h2 | h2
      · exact h.1 h2
      · exact h1 h2

theorem tagAddTagged_kind (t : Page) (pid : String) :
    (tagAddTagged t pid).kind = t.kind := by
  unfold tagAddTagged
  by_cases h : pid ∈ t.tagged <;> simp [h]

theorem tagAddTagged_name (t : Page) (pid : String) :
    (tagAddTagged t pid).name = t.name := by
  unfold tagAddTagged
  by_cases h : pid ∈ t.tagged <;> simp [h]

theorem tagAddTagged_tags (t : Page) (pid : String) :
    (tagAddTagged t pid).tags = t.tags := by
  unfold tagAddTagged
  by_cases h : pid ∈ t.tagged <;> simp [h]

theorem tagAddTagged_date (t : Page) (pid : String) :
    (tagAddTagged t pid).date = t.date := by
  unfold tagAddTagged
  by_cases h : pid ∈ t.tagged <;> simp [h]

theorem tagAddTagged_mem (t : Page) (pid m : String) :
    m ∈ (tagAddTagged t pid).tagged ↔ m ∈ t.tagged ∨ m = pid := by
  unfold tagAddTagged
  by_cases h : pid ∈ t.tagged
  · simp only [h, if_pos]
    exact ⟨fun h2 => Or.inl h2, fun h2 => h2.elim id (fun he => he ▸ h)⟩
  · simp [h]

theorem tagUpd_id (tid pid : String) (q : Page) : (tagUpd tid pid q).id = q.id := by
  unfold tagUpd
  by_cases h : q.id = tid <;> simp [h, tagAddTagged_id]

theorem tagUpd_kind (tid pid : String) (q : Page) : (tagUpd tid pid q).kind = q.kind := by
  unfold tagUpd
  by_cases h : q.id = tid <;> simp [h, tagAddTagged_kind]

theorem tagUpd_name (tid pid : String) (q : Page) : (tagUpd tid pid q).name = q.name := by
  unfold tagUpd
  by_cases h : q.id = tid <;> simp [h, tagAddTagged_name]

theorem tagUpd_tags (tid pid : String) (q : Page) : (tagUpd tid pid q).tags = q.tags := by
  unfold tagUpd
  by_cases h : q.id = tid <;> simp [h, tagAddTagged_tags]

theorem tagUpd_date (tid pid : String) (q : Page) : (tagUpd tid pid q).date = q.date := by
  unfold tagUpd
  by_cases h : q.id = tid <;> simp [h, tagAddTagged_date]

theorem tagUpd_tagged_sub (tid pid m : String) (q : Page) (h : m ∈ q.tagged) :
    m ∈ (tagUpd tid pid q).tagged := by
  unfold tagUpd
  by_cases h2 : q.id = tid
  · simp only [h2, if_pos]
    exact (tagAddTagged_mem q pid m).mpr (Or.inl h)
  · simpa [h2] using h

theorem plookup_map_tagUpd (l : List Page) (tid pid k : String) :
    plookup (l.map (tagUpd tid pid)) k = (plookup l k).map (tagUpd tid pid) := by
  induction l with
  | nil => rfl
  | cons q rest ih =>
    by_cases h : q.id = k
    · simp [plookup, List.find?, tagUpd_id, h]
    · simpa [plookup, List.find?, tagUpd_id, h] using ih

theorem tagAdd_pages (db : DB) (n pid tid : String)
    (h : alookup db.tags n = some tid) :
    (db.tagAdd n pid).pages = db.pages.map (tagUpd tid pid) := by
  unfold DB.tagAdd
  rw [h]

theorem tagAdd_tags (db : DB) (n pid : String) : (db.tagAdd n pid).tags = db.tags := by
  unfold DB.tagAdd
  cases alookup db.tags n <;> rfl

theorem insertTag_ok (db db2 : DB) (t : Page) (h : db.insertTag t = .ok db2) :
    plookup db.pages t.id = none ∧ db2.pages = db.pages ++ [t]
      ∧ db2.tags = ainsert db.tags t.name t.id := by
  unfold DB.insertTag at h
  by_cases hc : (plookup db.pages t.id).isSome
  · simp [hc] at h
  · simp only [hc, Bool.false_eq_true, if_false, Except.ok.injEq] at h
    cases hl : plookup db.pages t.id with
    | some q => rw [hl] at hc; exact absurd rfl hc
    | none => exact ⟨rfl, by rw [← h], by rw [← h]⟩

/-! ### Invariant preservation -/

theorem nodup_append_fresh (l : List Page) (p : Page)
    (hn : (l.map Page.id).Nodup) (hfresh : plookup l p.id = none) :
    ((l ++ [p]).map Page.id).Nodup := by
  simp only [List.map_append, List.map_cons, List.map_nil]
  rw [List.nodup_append]
  refine ⟨hn, List.nodup_singleton _, ?_⟩
  intro a ha hb
  simp at hb
  rcases List.mem_map.mp ha with ⟨q, hq, rfl⟩
  exact (plookup_eq_none_iff _ _ |>.mp hfresh q hq) hb

theorem Dtarget_append (db : DB) (p2 : Page) (pid n : String)
    (h : Dtarget db pid n) :
    Dtarget (DB.mk (db.pages ++ [p2]) db.tags) pid n := by
  rcases h with ⟨t, h1, h2, h3, h4, h5⟩
  exact ⟨t, plookup_append_left _ _ _ _ h1, h2, h3, h4, h5⟩

theorem Dtarget_tagAdd (db : DB) (n2 pid2 pid n : String) (h : Dtarget db pid n) :
    Dtarget (db.tagAdd n2 pid2) pid n := by
  rcases h with ⟨t, h1, h2, h3, h4, h5⟩
  unfold DB.tagAdd
  cases halk : alookup db.tags n2 with
  | none => exact ⟨t, h1, h2, h3, h4, h5⟩
  | some tid =>
    refine ⟨tagUpd tid pid2 t, ?_, ?_, ?_, ?_, h5⟩
    · show plookup (db.pages.map (tagUpd tid pid2)) n = _
      rw [plookup_map_tagUpd, h1]
      rfl
    · rw [tagUpd_kind]; exact h2
    · rw [tagUpd_name]; exact h3
    · exact tagUpd_tagged_sub _ _ _ _ h4

theorem plookup_tagAdd_some (db : DB) (n2 pid2 k : String) (q : Page)
    (h : plookup db.pages k = some q) :
    ∃ q2, plookup (db.tagAdd n2 pid2).pages k = some q2
      ∧ q2.id = q.id ∧ q2.kind = q.kind ∧ q2.name = q.name ∧ q2.tags = q.tags
      ∧ q2.date = q.date ∧ ∀ m, m ∈ q.tagged → m ∈ q2.tagged := by
  unfold DB.tagAdd
  cases alookup db.tags n2 with
  | none => exact ⟨q, h, rfl, rfl, rfl, rfl, rfl, fun m hm => hm⟩
  | some tid =>
    refine ⟨tagUpd tid pid2 q, ?_, tagUpd_id _ _ _, tagUpd_kind _ _ _,
      tagUpd_name _ _ _, tagUpd_tags _ _ _, tagUpd_date _ _ _,
      fun m hm => tagUpd_tagged_sub _ _ _ _ hm⟩
    show plookup (db.pages.map (tagUpd tid pid2)) k = _
    rw [plookup_map_tagUpd, h]
    rfl

/-- Inserting a fresh page that is not a Tag page and carries no date
obligation preserves the structural invariants. -/
theorem Inv0_append (db : DB) (p : Page)
    (h0 : Inv0 db)
    (hfresh : plookup db.pages p.id = none)
    (hk : p.kind ≠ Kind.tagK)
    (hd : p.date.isSome = true → p.kind = Kind.content) :
    Inv0 (DB.mk (db.pages ++ [p]) db.tags) := by
  constructor
  · exact nodup_append_fresh _ _ h0.nodup hfresh
  · exact h0.tagsNodup
  · intro n tid halk
    rcases h0.tagmap n tid halk with ⟨htid, t, hpl, ht1, ht2, ht3, ht4⟩
    exact ⟨htid, t, plookup_append_left _ _ _ _ hpl, ht1, ht2, ht3, ht4⟩
  · intro t ht htk
    rcases List.mem_append.mp ht with ht2 | ht2
    · exact h0.tagpage t ht2 htk
    · simp at ht2
      subst ht2
      exact absurd htk hk
  · intro t ht htk pid hpid
    rcases List.mem_append.mp ht with ht2 | ht2
    · rcases h0.bwd t ht2 htk pid hpid with ⟨q, hq1, hq2, hq3⟩
      exact ⟨q, plookup_append_left _ _ _ _ hq1, hq2, hq3⟩
    · simp at ht2
      subst ht2
      exact absurd htk hk
  · intro q hq hqd
    rcases List.mem_append.mp hq with hq2 | hq2
    · exact h0.dated q hq2 hqd
    · simp at hq2
      subst hq2
      exact hd hqd

/-- Registering a fresh Tag page: characterization plus invariant
preservation. -/
theorem Inv0_insertTag (db db2 : DB) (n : String)
    (h0 : Inv0 db) (h : db.insertTag (mkTag n) = .ok db2) :
    Inv0 db2 ∧ db2.pages = db.pages ++ [mkTag n] ∧ db2.tags = ainsert db.tags n n
      ∧ plookup db.pages n = none ∧ alookup db.tags n = none := by
  obtain ⟨hfresh0, hpages, htags⟩ := insertTag_ok _ _ _ h
  have hfresh : plookup db.pages n = none := hfresh0
  have htagsmk : db2.tags = ainsert db.tags n n := htags
  have htagnone : alookup db.tags n = none := by
    cases hl : alookup db.tags n with
    | none => rfl
    | some tid =>
      rcases h0.tagmap n tid hl with ⟨-, t, hpl, -⟩
      rw [hpl] at hfresh
      cases hfresh
  refine ⟨?_, hpages, htagsmk, hfresh, htagnone⟩
  obtain ⟨p2, t2⟩ := db2
  simp only at hpages htagsmk
  subst hpages
  subst htagsmk
  have hmklook : plookup (db.pages ++ [mkTag n]) n = some (mkTag n) := by
    rw [plookup_append_right _ _ _ hfresh, plookup_singleton]
    simp [mkTag]
  constructor
  · exact nodup_append_fresh _ _ h0.nodup hfresh
  · exact ainsert_keys_nodup _ _ _ h0.tagsNodup
  · intro m tid halk
    rw [alookup_ainsert] at halk
    by_cases hnm : n = m
    · subst hnm
      rw [if_pos rfl] at halk
      cases halk
      exact ⟨rfl, mkTag n, hmklook, rfl, rfl, rfl, rfl⟩
    · rw [if_neg hnm] at halk
      rcases h0.tagmap m tid halk with ⟨htid, t, hpl, ht1, ht2, ht3, ht4⟩
      exact ⟨htid, t, plookup_append_left _ _ _ _ hpl, ht1, ht2, ht3, ht4⟩
  · intro t ht htk
    rcases List.mem_append.mp ht with ht2 | ht2
    · rcases h0.tagpage t ht2 htk with ⟨hid, halk⟩
      have hne : n ≠ t.name := by
        intro he
        rw [← he] at halk
        rw [halk] at htagnone
        cases htagnone
      rw [alookup_ainsert, if_neg hne]
      exact ⟨hid, halk⟩
    · simp at ht2
      subst ht2
      rw [alookup_ainsert]
      simp [mkTag]
  · intro t ht htk pid hpid
    rcases List.mem_append.mp ht with ht2 | ht2
    · rcases h0.bwd t ht2 htk pid hpid with ⟨q, hq1, hq2, hq3⟩
      exact ⟨q, plookup_append_left _ _ _ _ hq1, hq2, hq3⟩
    · simp at ht2
      subst ht2
      simp [mkTag] at hpid
  · intro q hq hqd
    rcases List.mem_append.mp hq with hq2 | hq2
    · exact h0.dated q hq2 hqd
    · simp at hq2
      subst hq2
      simp [mkTag] at hqd

theorem Dtarget_insertTag (db db2 : DB) (n : String) (pid m : String)
    (h : db.insertTag (mkTag n) = .ok db2)
    (h0 : Inv0 db)
    (hD : Dtarget db pid m) :
    Dtarget db2 pid m := by
  obtain ⟨-, hpages, htags, -, htagnone⟩ := Inv0_insertTag db db2 n h0 h
  rcases hD with ⟨t, h1, h2, h3, h4, h5⟩
  have hne : n ≠ m := by
    intro he
    rw [he] at htagnone
    rw [htagnone] at h5
    cases h5
  refine ⟨t, ?_, h2, h3, h4, ?_⟩
  · rw [hpages]
    exact plookup_append_left _ _ _ _ h1
  · rw [htags, alookup_ainsert, if_neg hne]
    exact h5

/-- tag.add(page) for a registered tag preserves the structural invariants
and establishes the bidirectional link for (pid, n). -/
theorem Inv0_tagAdd (db : DB) (n pid : String)
    (h0 : Inv0 db)
    (halk : alookup db.tags n = some n)
    (hp : ∃ p, plookup db.pages pid = some p ∧ p.kind = Kind.content ∧ n ∈ p.tags) :
    Inv0 (db.tagAdd n pid) ∧ Dtarget (db.tagAdd n pid) pid n := by
  rcases h0.tagmap n n halk with ⟨-, t, hpl, htk, htn, -, -⟩
  have htid : t.id = n := (plookup_mem _ _ _ hpl).2
  have hpages : (db.tagAdd n pid).pages = db.pages.map (tagUpd n pid) :=
    tagAdd_pages db n pid n halk
  have htags : (db.tagAdd n pid).tags = db.tags := tagAdd_tags db n pid
  have hlk : ∀ k, plookup (db.tagAdd n pid).pages k
      = (plookup db.pages k).map (tagUpd n pid) := by
    intro k
    rw [hpages, plookup_map_tagUpd]
  obtain ⟨p, hppl, hpk, hpn⟩ := hp
  have hDt : Dtarget (db.tagAdd n pid) pid n := by
    refine ⟨tagUpd n pid t, ?_, ?_, ?_, ?_, ?_⟩
    · rw [hlk, hpl]; rfl
    · rw [tagUpd_kind]; exact htk
    · rw [tagUpd_name]; exact htn
    · unfold tagUpd
      rw [if_pos htid]
      exact (tagAddTagged_mem t pid pid).mpr (Or.inr rfl)
    · rw [htags]; exact halk
  refine ⟨?_, hDt⟩
  constructor
  · rw [show (db.tagAdd n pid).pages.map Page.id = db.pages.map Page.id from
      tagAdd_map_id db n pid]
    exact h0.nodup
  · rw [htags]; exact h0.tagsNodup
  · intro m tid halk2
    rw [htags] at halk2
    rcases h0.tagmap m tid halk2 with ⟨hm, t2, hpl2, ht1, ht2, ht3, ht4⟩
    refine ⟨hm, tagUpd n pid t2, ?_, ?_, ?_, ?_, ?_⟩
    · rw [hlk, hpl2]; rfl
    · rw [tagUpd_kind]; exact ht1
    · rw [tagUpd_name]; exact ht2
    · rw [tagUpd_tags]; exact ht3
    · rw [tagUpd_date]; exact ht4
  · intro t2 ht2 htk2
    rw [hpages] at ht2
    rcases List.mem_map.mp ht2 with ⟨q, hq, rfl⟩
    rw [tagUpd_kind] at htk2
    rcases h0.tagpage q hq htk2 with ⟨hid, halkq⟩
    refine ⟨?_, ?_⟩
    · rw [tagUpd_id, tagUpd_name]; exact hid
    · rw [tagUpd_id, tagUpd_name, htags]; exact halkq
  · intro t2 ht2 htk2 pid2 hpid2
    rw [hpages] at ht2
    rcases List.mem_map.mp ht2 with ⟨q, hq, rfl⟩
    rw [tagUpd_kind] at htk2
    have hqname : (tagUpd n pid q).name = q.name := tagUpd_name _ _ _
    by_cases hqid : q.id = n
    · rw [show tagUpd n pid q = tagAddTagged q pid by unfold tagUpd; rw [if_pos hqid]]
        at hpid2 hqname ⊢
      rcases (tagAddTagged_mem q pid pid2).mp hpid2 with hold | heq
      · rcases h0.bwd q hq htk2 pid2 hold with ⟨q2, hq1, hq2, hq3⟩
        rcases plookup_tagAdd_some db n pid pid2 q2 hq1 with
          ⟨q3, hq31, -, hq33, -, hq35, -, -⟩
        refine ⟨q3, hq31, by rw [hq33]; exact hq2, ?_⟩
        rw [hq35, tagAddTagged_name]
        exact hq3
      · rw [heq]
        have hqt : q = t := by
          have hself := plookup_of_mem db.pages q h0.nodup hq
          rw [hqid] at hself
          rw [hself] at hpl
          cases hpl
          rfl
        rcases plookup_tagAdd_some db n pid pid p hppl with
          ⟨q3, hq31, -, hq33, -, hq35, -, -⟩
        refine ⟨q3, hq31, by rw [hq33]; exact hpk, ?_⟩
        rw [hq35, tagAddTagged_name, hqt, htn]
        exact hpn
    · rw [show tagUpd n pid q = q by unfold tagUpd; rw [if_neg hqid]] at hpid2 ⊢
      rcases h0.bwd q hq htk2 pid2 hpid2 with ⟨q2, hq1, hq2, hq3⟩
      rcases plookup_tagAdd_some db n pid pid2 q2 hq1 with
        ⟨q3, hq31, -, hq33, -, hq35, -, -⟩
      exact ⟨q3, hq31, by rw [hq33]; exact hq2, by rw [hq35]; exact hq3⟩
  · intro q hq hqd
    rw [hpages] at hq
    rcases List.mem_map.mp hq with ⟨q0, hq0, rfl⟩
    rw [tagUpd_date] at hqd
    rw [tagUpd_kind]
    exact h0.dated q0 hq0 hqd

/-- The tag loop of add: if every content page is consistent except the
current page for the names still to process, and the current page is a
registered content page whose tag set contains those names, a successful
loop yields the full invariant. -/
theorem addTags_inv (pid : String) (ns : List String) (db db2 : DB)
    (h0 : Inv0 db)
    (hfwd : ∀ p, p ∈ db.pages → p.kind = Kind.content → ∀ n, n ∈ p.tags →
      (p.id = pid ∧ n ∈ ns) ∨ Dtarget db p.id n)
    (hcur : ∃ p, plookup db.pages pid = some p ∧ p.kind = Kind.content
      ∧ ∀ n, n ∈ ns → n ∈ p.tags)
    (h : DB.addTags db pid ns = .ok db2) :
    Inv db2 := by
  induction ns generalizing db with
  | nil =>
    unfold DB.addTags at h
    cases h
    refine ⟨h0, ?_⟩
    intro p hp hk n hn
    rcases hfwd p hp hk n hn with ⟨-, hmem⟩ | hD
    · cases hmem
    · exact hD
  | cons n rest ih =>
    unfold DB.addTags at h
    obtain ⟨p, hppl, hpk, hptags⟩ := hcur
    by_cases hc : (alookup db.tags n).isSome
    · simp only [hc, if_pos] at h
      obtain ⟨tid, htid⟩ := Option.isSome_iff_exists.mp hc
      obtain ⟨htidn, -⟩ := h0.tagmap n tid htid
      rw [htidn] at htid
      have hstep := Inv0_tagAdd db n pid h0 htid
        ⟨p, hppl, hpk, hptags n (List.mem_cons_self _ _)⟩
      have hpagesA : (db.tagAdd n pid).pages = db.pages.map (tagUpd n pid) :=
        tagAdd_pages db n pid n htid
      refine ih (db.tagAdd n pid) hstep.1 ?_ ?_ h
      · intro q hq hqk m hm
        rw [hpagesA] at hq
        rcases List.mem_map.mp hq with ⟨q0, hq0, rfl⟩
        rw [tagUpd_kind] at hqk
        rw [tagUpd_tags] at hm
        rcases hfwd q0 hq0 hqk m hm with ⟨hqid, hmem⟩ | hD
        · rcases List.mem_cons.mp hmem with rfl | hmem2
          · right
            rw [tagUpd_id, hqid]
            exact hstep.2
          · left
            rw [tagUpd_id]
            exact ⟨hqid, hmem2⟩
        · right
          rw [tagUpd_id]
          exact Dtarget_tagAdd db n pid q0.id m hD
      · rcases plookup_tagAdd_some db n pid pid p hppl with
          ⟨q3, hq31, -, hq33, -, hq35, -, -⟩
        refine ⟨q3, hq31, by rw [hq33]; exact hpk, ?_⟩
        intro m hm
        rw [hq35]
        exact hptags m (List.mem_cons_of_mem _ hm)
    · simp only [hc, Bool.false_eq_true, if_false] at h
      cases hins : db.insertTag (mkTag n) with
      | error e =>
        rw [hins] at h
        exact absurd h (by simp)
      | ok dbt =>
        rw [hins] at h
        obtain ⟨h0t, hpagest, htagst, hfresh, htagnone⟩ := Inv0_insertTag db dbt n h0 hins
        have halkt : alookup dbt.tags n = some n := by
          rw [htagst, alookup_ainsert, if_pos rfl]
        have hplt : plookup dbt.pages pid = some p := by
          rw [hpagest]
          exact plookup_append_left _ _ _ _ hppl
        have hstep := Inv0_tagAdd dbt n pid h0t halkt
          ⟨p, hplt, hpk, hptags n (List.mem_cons_self _ _)⟩
        have hpagesA : (dbt.tagAdd n pid).pages = dbt.pages.map (tagUpd n pid) :=
          tagAdd_pages dbt n pid n halkt
        refine ih (dbt.tagAdd n pid) hstep.1 ?_ ?_ h
        · intro q hq hqk m hm
          rw [hpagesA] at hq
          rcases List.mem_map.mp hq with ⟨q0, hq0, rfl⟩
          rw [tagUpd_kind] at hqk
          rw [tagUpd_tags] at hm
          rw [hpagest] at hq0
          rcases List.mem_append.mp hq0 with hq02 | hq02
          · rcases hfwd q0 hq02 hqk m hm with ⟨hqid, hmem⟩ | hD
            · rcases List.mem_cons.mp hmem with rfl | hmem2
              · right
                rw [tagUpd_id, hqid]
                exact hstep.2
              · left
                rw [tagUpd_id]
                exact ⟨hqid, hmem2⟩
            · right
              rw [tagUpd_id]
              exact Dtarget_tagAdd dbt n pid q0.id m
                (Dtarget_insertTag db dbt n q0.id m hins h0 hD)
          · simp at hq02
            subst hq02
            simp [mkTag] at hqk
        · rcases plookup_tagAdd_some dbt n pid pid p hplt with
            ⟨q3, hq31, -, hq33, -, hq35, -, -⟩
          refine ⟨q3, hq31, by rw [hq33]; exact hpk, ?_⟩
          intro m hm
          rw [hq35]
          exact hptags m (List.mem_cons_of_mem _ hm)

/-- PageDatabase.add preserves the full invariant for pages the program can
construct. -/
theorem add_inv (db db2 : DB) (p : Page) (hWF : WF p) (hinv : Inv db)
    (h : DB.add db p = .ok db2) : Inv db2 := by
  obtain ⟨h0, hfwd⟩ := hinv
  unfold DB.add at h
  by_cases hk : p.kind = Kind.tagK
  · rw [if_pos hk] at h
    have hp := hWF.1 hk
    rw [hp] at h
    obtain ⟨h0t, hpagest, htagst, -, -⟩ := Inv0_insertTag db db2 p.name h0 h
    refine ⟨h0t, ?_⟩
    intro q hq hqk m hm
    rw [hpagest] at hq
    rcases List.mem_append.mp hq with hq2 | hq2
    · exact Dtarget_insertTag db db2 p.name q.id m h h0 (hfwd q hq2 hqk m hm)
    · simp at hq2
      subst hq2
      simp [mkTag] at hqk
  · rw [if_neg hk] at h
    by_cases hdup : (plookup db.pages p.id).isSome
    · simp [hdup] at h
    · simp only [hdup, Bool.false_eq_true, if_false] at h
      have hfresh : plookup db.pages p.id = none := by
        cases hl : plookup db.pages p.id with
        | none => rfl
        | some q => rw [hl] at hdup; exact absurd rfl hdup
      by_cases hck : p.kind = Kind.content
      · rw [if_pos hck] at h
        have h01 : Inv0 (DB.mk (db.pages ++ [p]) db.tags) :=
          Inv0_append db p h0 hfresh hk (fun _ => hck)
        refine addTags_inv p.id p.tags (DB.mk (db.pages ++ [p]) db.tags) db2 h01 ?_ ?_ h
        · intro q hq hqk m hm
          rcases List.mem_append.mp hq with hq2 | hq2
          · exact Or.inr (Dtarget_append db p q.id m (hfwd q hq2 hqk m hm))
          · simp at hq2
            subst hq2
            exact Or.inl ⟨rfl, hm⟩
        · refine ⟨p, ?_, hck, fun m hm => hm⟩
          rw [plookup_append_right _ _ _ hfresh, plookup_singleton, if_pos rfl]
      · rw [if_neg hck] at h
        cases h
        have harch : p.kind = Kind.archive := by
          cases hkind : p.kind
          · exact absurd hkind hck
          · exact absurd hkind hk
          · rfl
        refine ⟨Inv0_append db p h0 hfresh hk ?_, ?_⟩
        · intro hds
          rw [(hWF.2.1 harch).1] at hds
          cases hds
        · intro q hq hqk m hm
          rcases List.mem_append.mp hq with hq2 | hq2
          · exact Dtarget_append db p q.id m (hfwd q hq2 hqk m hm)
          · simp at hq2
            subst hq2
            exact absurd hqk (by rw [harch]; intro hcontra; cases hcontra)

theorem Inv_empty : Inv DB.empty := by
  refine ⟨⟨?_, ?_, ?_, ?_, ?_, ?_⟩, ?_⟩
  · simp [DB.empty]
  · simp [DB.empty]
  · intro n tid halk
    simp [DB.empty, alookup] at halk
  · intro t ht
    simp [DB.empty] at ht
  · intro t ht
    simp [DB.empty] at ht
  · intro q hq
    simp [DB.empty] at hq
  · intro q hq
    simp [DB.empty] at hq

theorem addAll_inv (ps : List Page) (db db2 : DB)
    (hWF : ∀ p, p ∈ ps → WF p) (hinv : Inv db)
    (h : DB.addAll db ps = .ok db2) : Inv db2 := by
  induction ps generalizing db with
  | nil =>
    unfold DB.addAll at h
    cases h
    exact hinv
  | cons p rest ih =>
    unfold DB.addAll at h
    cases ha : DB.add db p with
    | error e => rw [ha] at h; exact absurd h (by simp)
    | ok dbm =>
      rw [ha] at h
      exact ih dbm (fun q hq => hWF q (List.mem_cons_of_mem _ hq))
        (add_inv db dbm p (hWF p (List.mem_cons_self _ _)) hinv ha) h

/-! ### select: filtering and truncation (C6), ordering (C5) -/

/-- Membership in an unlimited dated select: exactly the dated pages
passing the tag filter. -/
theorem select_none_mem_iff (db : DB) (tag : Option String) (chrono : Bool)
    (sbo : Option Bool) (p : Page) :
    p ∈ DB.select db none true tag chrono sbo ↔
      p ∈ db.pages ∧ p.date.isSome ∧ ∀ t, tag = some t → t ∈ p.tags := by
  simp only [DB.select]
  have hperm := List.mergeSort_perm db.pages
    (fun a b => if chrono
      then keyLe (if sbo.getD chrono then sortkey_origin a else sortkey_posted a)
             (if sbo.getD chrono then sortkey_origin b else sortkey_posted b)
      else keyLe (if sbo.getD chrono then sortkey_origin b else sortkey_posted b)
             (if sbo.getD chrono then sortkey_origin a else sortkey_posted a))
  cases tag with
  | none =>
    simp only [reduceIte, List.mem_filter]
    constructor
    · rintro ⟨h1, h2⟩
      exact ⟨hperm.mem_iff.mp h1, h2, by rintro t ⟨⟩⟩
    · rintro ⟨h1, h2, _⟩
      exact ⟨hperm.mem_iff.mpr h1, h2⟩
  | some t =>
    simp only [reduceIte, List.mem_filter]
    constructor
    · rintro ⟨⟨h1, h2⟩, h3⟩
      refine ⟨hperm.mem_iff.mp h1, h2, ?_⟩
      rintro t2 ht2
      cases ht2
      exact of_decide_eq_true h3
    · rintro ⟨h1, h2, h3⟩
      exact ⟨⟨hperm.mem_iff.mpr h1, h2⟩, decide_eq_true (h3 t rfl)⟩

/-- Claim C6: with dated=true (the default) select never returns a page
whose date is absent; limit=n truncates to at most n entries; limit=None
returns every match, as a materialized list. -/
theorem C6_select_dated_limit (db : DB) (tag : Option String) (chrono : Bool)
    (sbo : Option Bool) :
    (∀ limit p, p ∈ DB.select db limit true tag chrono sbo → p.date.isSome)
    ∧ (∀ n dated, (DB.select db (some n) dated tag chrono sbo).length ≤ n)
    ∧ (∀ p, p ∈ DB.select db none true tag chrono sbo ↔
        p ∈ db.pages ∧ p.date.isSome ∧ ∀ t, tag = some t → t ∈ p.tags) := by
  refine ⟨?_, ?_, ?_⟩
  · intro limit p hp
    simp only [DB.select] at hp
    cases limit with
    | none =>
      cases tag with
      | none => exact (List.mem_filter.mp hp).2
      | some t => exact (List.mem_filter.mp (List.mem_filter.mp hp).1).2
    | some n =>
      cases tag with
      | none => exact (List.mem_filter.mp (List.mem_of_mem_take hp)).2
      | some t =>
        exact (List.mem_filter.mp (List.mem_filter.mp (List.mem_of_mem_take hp)).1).2
  · intro n dated
    simp only [DB.select]
    exact List.length_take_le n _
  · intro p
    exact select_none_mem_iff db tag chrono sbo p

/-- One sort-filter pipeline: the merge sort of a list with pairwise
distinct ids is pairwise ordered by the comparison and pairwise distinct. -/
theorem mergeSort_pairwise_strict (l : List Page) (le : Page → Page → Bool)
    (htr : ∀ a b c : Page, le a b = true → le b c = true → le a c = true)
    (htot : ∀ a b : Page, (le a b || le b a) = true)
    (hn : (l.map Page.id).Nodup) :
    (l.mergeSort le).Pairwise (fun a b => le a b = true ∧ a.id ≠ b.id) := by
  have hsorted := List.sorted_mergeSort htr htot l
  have hperm := List.mergeSort_perm l le
  have hmap : ((l.mergeSort le).map Page.id).Perm (l.map Page.id) := hperm.map _
  have hnodup2 : ((l.mergeSort le).map Page.id).Nodup := hmap.nodup_iff.mpr hn
  have hne : (l.mergeSort le).Pairwise (fun a b => a.id ≠ b.id) :=
    List.pairwise_map.mp hnodup2
  exact hsorted.and hne

/-- Claim C5: with default arguments select is ordered strictly descending
by the posted key (posted falling back to date, then id); with chrono=true
and no explicit sortby_origin it is ordered strictly ascending by the
origin key (date, then id).  Strictness holds because the ids in a
database reached by successful adds are pairwise distinct and the id is
part of the key. -/
theorem C5_select_order (ps : List Page) (db : DB)
    (h : DB.addAll DB.empty ps = .ok db) :
    (DB.select db none true none false none).Pairwise
      (fun a b => keyLe (sortkey_posted b) (sortkey_posted a) = true
        ∧ sortkey_posted a ≠ sortkey_posted b)
    ∧ (DB.select db none true none true none).Pairwise
      (fun a b => keyLe (sortkey_origin a) (sortkey_origin b) = true
        ∧ sortkey_origin a ≠ sortkey_origin b) := by
  have hnodup : (db.pages.map Page.id).Nodup :=
    addAll_nodup ps DB.empty db (by simp [DB.empty]) h
  constructor
  · have hpair := mergeSort_pairwise_strict db.pages
      (fun a b => keyLe (sortkey_posted b) (sortkey_posted a))
      (fun a b c hab hbc => keyLe_trans _ _ _ hbc hab)
      (fun a b => by
        rcases keyLe_total (sortkey_posted b) (sortkey_posted a) with h2 | h2 <;>
          simp [h2])
      hnodup
    show (List.filter (fun p => p.date.isSome)
        (db.pages.mergeSort (fun a b => keyLe (sortkey_posted b) (sortkey_posted a)))).Pairwise _
    refine List.Pairwise.sublist (List.filter_sublist _) (List.Pairwise.imp ?_ hpair)
    intro a b hab
    exact ⟨hab.1, fun hk => hab.2 (String.ext (congrArg Prod.snd hk))⟩
  · have hpair := mergeSort_pairwise_strict db.pages
      (fun a b => keyLe (sortkey_origin a) (sortkey_origin b))
      (fun a b c hab hbc => keyLe_trans _ _ _ hab hbc)
      (fun a b => by
        rcases keyLe_total (sortkey_origin a) (sortkey_origin b) with h2 | h2 <;>
          simp [h2])
      hnodup
    show (List.filter (fun p => p.date.isSome)
        (db.pages.mergeSort (fun a b => keyLe (sortkey_origin a) (sortkey_origin b)))).Pairwise _
    refine List.Pairwise.sublist (List.filter_sublist _) (List.Pairwise.imp ?_ hpair)
    intro a b hab
    exact ⟨hab.1, fun hk => hab.2 (String.ext (congrArg Prod.snd hk))⟩

/-- Witness for C5 on a two-page database. -/
theorem C5_select_order_witness :
    DB.addAll DB.empty
        [mkContent "2021/a" (some ⟨2021, 10⟩) none [],
         mkContent "2021/b" (some ⟨2021, 5⟩) none []]
      = .ok (DB.mk
        [mkContent "2021/a" (some ⟨2021, 10⟩) none [],
         mkContent "2021/b" (some ⟨2021, 5⟩) none []] [])
    ∧ ((DB.select (DB.mk
        [mkContent "2021/a" (some ⟨2021, 10⟩) none [],
         mkContent "2021/b" (some ⟨2021, 5⟩) none []] []) none true none false none).Pairwise
        (fun a b => keyLe (sortkey_posted b) (sortkey_posted a) = true
          ∧ sortkey_posted a ≠ sortkey_posted b)
      ∧ (DB.select (DB.mk
        [mkContent "2021/a" (some ⟨2021, 10⟩) none [],
         mkContent "2021/b" (some ⟨2021, 5⟩) none []] []) none true none true none).Pairwise
        (fun a b => keyLe (sortkey_origin a) (sortkey_origin b) = true
          ∧ sortkey_origin a ≠ sortkey_origin b)) :=
  ⟨rfl,
    C5_select_order
      [mkContent "2021/a" (some ⟨2021, 10⟩) none [],
       mkContent "2021/b" (some ⟨2021, 5⟩) none []]
      (DB.mk
        [mkContent "2021/a" (some ⟨2021, 10⟩) none [],
         mkContent "2021/b" (some ⟨2021, 5⟩) none []] [])
      rfl⟩

/-! ### Summary extraction (C1) -/

theorem startsWith_append (p l : List Char) : startsWith p (p ++ l) = true := by
  induction p with
  | nil => rfl
  | cons c cs ih => simp [startsWith, ih]

theorem splitFirst_none (pt l : List Char) (h : '<' ∉ l) :
    splitFirst ('<' :: pt) l = none := by
  induction l with
  | nil => rfl
  | cons c rest ih =>
    simp only [List.mem_cons, not_or] at h
    have hne : ('<' = c) = False := eq_false h.1
    simp [splitFirst, startsWith, hne, ih h.2]

theorem splitFirst_append (pt a b : List Char) (ha : '<' ∉ a) :
    splitFirst ('<' :: pt) (a ++ (('<' :: pt) ++ b)) = some (a, b) := by
  induction a with
  | nil =>
    show splitFirst ('<' :: pt) ('<' :: (pt ++ b)) = some ([], b)
    have hsw : startsWith ('<' :: pt) ('<' :: (pt ++ b)) = true :=
      startsWith_append ('<' :: pt) b
    simp [splitFirst, hsw, List.drop_left]
  | cons c a' ih =>
    simp only [List.mem_cons, not_or] at ha
    have hne : ('<' = c) = False := eq_false ha.1
    have ih2 := ih ha.2
    show splitFirst ('<' :: pt) (c :: (a' ++ (('<' :: pt) ++ b))) = some (c :: a', b)
    simp only [splitFirst, startsWith, hne, decide_False, Bool.false_and,
      Bool.false_eq_true, if_false]
    rw [ih2]

theorem subSummaryF_no_open (f : Nat) (l : List Char) (h : '<' ∉ l) :
    subSummaryF f l = (l, none) := by
  cases f with
  | zero => rfl
  | succ k =>
    have hsp : splitFirst openTag l = none := by
      rw [show openTag = '<' :: "summary>".data from rfl]
      exact splitFirst_none _ _ h
    simp [subSummaryF, hsp]

theorem subSummaryF_step (f : Nat) (s pre rest inner post : List Char)
    (hsp1 : splitFirst openTag s = some (pre, rest))
    (hsp2 : splitFirst closeTag rest = some (inner, post)) :
    subSummaryF (f + 1) s
      = (pre ++ trimChars inner ++ (subSummaryF f post).1,
         some ((subSummaryF f post).2.getD (trimChars inner))) := by
  simp [subSummaryF, hsp1, hsp2]

/-- A body with exactly one summary region: the substitution keeps the
trimmed inner text in place of the whole region, and reports that trimmed
inner text as the summary. -/
theorem subSummary_single (pre inner post : List Char)
    (h1 : '<' ∉ pre) (h2 : '<' ∉ inner) (h3 : '<' ∉ post) :
    subSummary (pre ++ openTag ++ inner ++ closeTag ++ post)
      = (pre ++ trimChars inner ++ post, some (trimChars inner)) := by
  have hsp1 : splitFirst openTag (pre ++ openTag ++ inner ++ closeTag ++ post)
      = some (pre, inner ++ closeTag ++ post) := by
    have hassoc : pre ++ openTag ++ inner ++ closeTag ++ post
        = pre ++ (openTag ++ (inner ++ closeTag ++ post)) := by
      simp only [List.append_assoc]
    rw [hassoc, show openTag = '<' :: "summary>".data from rfl]
    exact splitFirst_append _ _ _ h1
  have hsp2 : splitFirst closeTag (inner ++ closeTag ++ post) = some (inner, post) := by
    have hassoc : inner ++ closeTag ++ post = inner ++ (closeTag ++ post) := by
      simp only [List.append_assoc]
    rw [hassoc, show closeTag = '<' :: "/summary>".data from rfl]
    exact splitFirst_append _ _ _ h2
  have hne : (pre ++ openTag ++ inner ++ closeTag ++ post) ≠ [] := by
    intro hcontra
    have := congrArg List.length hcontra
    simp [openTag] at this
  have hlen : (pre ++ openTag ++ inner ++ closeTag ++ post).length
      = ((pre ++ openTag ++ inner ++ closeTag ++ post).length - 1) + 1 :=
    (Nat.succ_pred_eq_of_pos (List.length_pos.mpr hne)).symm
  unfold subSummary
  rw [hlen, subSummaryF_step _ _ _ _ _ _ hsp1 hsp2, subSummaryF_no_open _ post h3]
  rfl

/-- Claim C1 (amended): for a body containing a single summary region, the
summary field stores the plain-text extraction of the converted trimmed
inner text, and the body handed to markdown is the body with the region
replaced by its trimmed inner text (only the tags are dropped; the claim
says the whole region including the inner text is removed, which the
counterexample refutes). -/
theorem C1_summary_extraction (md pt : String → String) (pre inner post : String)
    (h1 : '<' ∉ pre.data) (h2 : '<' ∉ inner.data) (h3 : '<' ∉ post.data) :
    contentOf md (pre ++ "<summary>" ++ inner ++ "</summary>" ++ post)
      = md (String.mk (trimChars (pre.data ++ trimChars inner.data ++ post.data)))
    ∧ summaryOf md pt (pre ++ "<summary>" ++ inner ++ "</summary>" ++ post)
      = pt (md (String.mk (trimChars inner.data))) := by
  have hdata : (pre ++ "<summary>" ++ inner ++ "</summary>" ++ post).data
      = pre.data ++ openTag ++ inner.data ++ closeTag ++ post.data := by
    simp [String.data_append, openTag, closeTag, List.append_assoc]
  constructor
  · unfold contentOf contentSource
    rw [hdata, subSummary_single _ _ _ h1 h2 h3]
  · unfold summaryOf
    rw [hdata, subSummary_single _ _ _ h1 h2 h3]

/-- Witness for C1 on the spec's example body. -/
theorem C1_summary_extraction_witness :
    ('<' ∉ "Hello ".data ∧ '<' ∉ "Short".data ∧ '<' ∉ " world".data)
    ∧ (contentOf id ("Hello " ++ "<summary>" ++ "Short" ++ "</summary>" ++ " world")
        = id (String.mk (trimChars ("Hello ".data ++ trimChars "Short".data ++ " world".data)))
      ∧ summaryOf id id ("Hello " ++ "<summary>" ++ "Short" ++ "</summary>" ++ " world")
        = id (id (String.mk (trimChars "Short".data)))) :=
  ⟨⟨by decide, by decide, by decide⟩,
    C1_summary_extraction id id "Hello " "Short" " world" (by decide) (by decide) (by decide)⟩

/-- Claim C1 (counterexample): on the spec's own example body the text
handed to markdown is "Hello Short world" — the inner text survives in the
body — not "Hello  world" as removing the entire matched region would
give. -/
theorem C1_region_not_removed :
    contentSource "Hello <summary>Short</summary> world" = "Hello Short world"
    ∧ removedSource "Hello <summary>Short</summary> world" = "Hello  world"
    ∧ contentSource "Hello <summary>Short</summary> world"
        ≠ removedSource "Hello <summary>Short</summary> world" := by
  refine ⟨by decide, by decide, by decide⟩

/-! ### Neighbour linking (C7) -/

theorem neighbours_aux_gen {α : Type} (xs : List α) : ∀ (x : α) (prev : Option α),
    zip3 (prev :: (x :: xs).dropLast.map some) (x :: xs) ((x :: xs).tail.map some ++ [none])
      = neighboursAux prev (x :: xs) := by
  induction xs with
  | nil => intro x prev; rfl
  | cons y ys ih =>
    intro x prev
    show (prev, x, some y)
        :: zip3 (some x :: (y :: ys).dropLast.map some) (y :: ys) (ys.map some ++ [none])
      = (prev, x, some y) :: neighboursAux (some x) (y :: ys)
    exact congrArg _ (ih y (some x))

theorem neighbours_eq_aux {α : Type} (l : List α) :
    neighbours l = neighboursAux none l := by
  cases l with
  | nil => rfl
  | cons x xs => exact neighbours_aux_gen xs x none

theorem neighboursAux_getElem? {α : Type} (l : List α) : ∀ (prev : Option α) (k : Nat),
    (neighboursAux prev l)[k]? = (l[k]?).map (fun x =>
      ((if k = 0 then prev else l[k - 1]?), x, l[k + 1]?)) := by
  induction l with
  | nil => intro prev k; simp [neighboursAux]
  | cons x xs ih =>
    intro prev k
    cases xs with
    | nil =>
      cases k with
      | zero => rfl
      | succ j => simp [neighboursAux]
    | cons y ys =>
      cases k with
      | zero => simp [neighboursAux]
      | succ j =>
        show ((prev, x, some y) :: neighboursAux (some x) (y :: ys))[j + 1]? = _
        rw [List.getElem?_cons_succ, ih (some x) j]
        cases j with
        | zero => simp
        | succ i => simp

theorem linkYear_getElem? (posts : List Page) (k : Nat) :
    (linkYear posts)[k]?
      = ((sortedByOrigin posts)[k]?).map (fun p =>
        { p with
          prevpost := if k = 0 then none
            else ((sortedByOrigin posts)[k - 1]?).map Page.id,
          nextpost := ((sortedByOrigin posts)[k + 1]?).map Page.id }) := by
  unfold linkYear
  rw [List.getElem?_map, neighbours_eq_aux, neighboursAux_getElem?]
  cases hsk : (sortedByOrigin posts)[k]? with
  | none => rfl
  | some p => by_cases hk : k = 0 <;> simp [hk]

theorem bucketAdd_mem (acc : List (Int × List Page)) (y : Int) (p : Page)
    (hacc : ∀ y2 l, (y2, l) ∈ acc →
      l ≠ [] ∧ ∀ q ∈ l, ∃ d, q.date = some d ∧ d.year = y2)
    (hp : ∃ d, p.date = some d ∧ d.year = y) :
    ∀ y2 l, (y2, l) ∈ bucketAdd acc y p →
      l ≠ [] ∧ ∀ q ∈ l, ∃ d, q.date = some d ∧ d.year = y2 := by
  induction acc with
  | nil =>
    intro y2 l hl
    simp [bucketAdd] at hl
    rcases hl with ⟨rfl, rfl⟩
    refine ⟨by simp, ?_⟩
    intro q hq
    simp at hq
    exact hq ▸ hp
  | cons hd rest ih =>
    obtain ⟨y3, l3⟩ := hd
    intro y2 l hl
    by_cases hy : y3 = y
    · simp only [bucketAdd, hy, if_pos] at hl
      rcases List.mem_cons.mp hl with heq | htail
      · have h3 := hacc y3 l3 (List.mem_cons_self _ _)
        cases heq
        refine ⟨by simp, ?_⟩
        intro q hq
        rcases List.mem_append.mp hq with hq2 | hq2
        · have h4 := h3.2 q hq2
          rw [hy] at h4
          exact h4
        · simp at hq2
          subst hq2
          exact hp
      · exact hacc y2 l (List.mem_cons_of_mem _ htail)
    · simp only [bucketAdd, hy] at hl
      rcases List.mem_cons.mp hl with heq | htail
      · cases heq
        exact hacc y3 l3 (List.mem_cons_self _ _)
      · exact ih (fun y4 l4 h4 => hacc y4 l4 (List.mem_cons_of_mem _ h4)) y2 l htail

theorem groupYears_mem (ps : List Page) :
    ∀ y posts, (y, posts) ∈ groupYears ps →
      posts ≠ [] ∧ ∀ q ∈ posts, ∃ d, q.date = some d ∧ d.year = y := by
  unfold groupYears
  suffices h : ∀ (acc : List (Int × List Page)),
      (∀ y2 l, (y2, l) ∈ acc → l ≠ [] ∧ ∀ q ∈ l, ∃ d, q.date = some d ∧ d.year = y2) →
      ∀ y posts,
        (y, posts) ∈ ps.foldl (fun acc p =>
          match p.date with
          | none => acc
          | some d => bucketAdd acc d.year p) acc →
        posts ≠ [] ∧ ∀ q ∈ posts, ∃ d, q.date = some d ∧ d.year = y by
    exact h [] (by simp)
  induction ps with
  | nil => intro acc hacc y posts h; exact hacc y posts h
  | cons p rest ih =>
    intro acc hacc y posts h
    simp only [List.foldl_cons] at h
    cases hd : p.date with
    | none =>
      rw [hd] at h
      exact ih acc hacc y posts h
    | some d =>
      rw [hd] at h
      exact ih _ (bucketAdd_mem acc d.year p hacc ⟨d, hd, rfl⟩) y posts h

/-- Claim C7: within one calendar-year bucket, linking assigns each page of
the origin-sorted list its immediate neighbours (boundaries empty), the
sorted list is an ordered permutation of the bucket, every bucket page
carries that year, and every prevpost/nextpost reference names a page of
the same bucket — hence never a page of a different year. -/
theorem C7_neighbour_linking (ps : List Page) (y : Int) (posts : List Page)
    (hmem : (y, posts) ∈ groupYears ps) :
    (∀ (k : Nat) (p : Page), (sortedByOrigin posts)[k]? = some p →
      (linkYear posts)[k]? = some
        { p with
          prevpost := if k = 0 then none
            else ((sortedByOrigin posts)[k - 1]?).map Page.id,
          nextpost := ((sortedByOrigin posts)[k + 1]?).map Page.id })
    ∧ (sortedByOrigin posts).Perm posts
    ∧ (sortedByOrigin posts).Pairwise
        (fun a b => keyLe (sortkey_origin a) (sortkey_origin b) = true)
    ∧ ((posts.map Page.id).Nodup →
        (sortedByOrigin posts).Pairwise
          (fun a b => keyLe (sortkey_origin a) (sortkey_origin b) = true
            ∧ sortkey_origin a ≠ sortkey_origin b))
    ∧ (posts ≠ [] ∧ ∀ q ∈ posts, ∃ d, q.date = some d ∧ d.year = y)
    ∧ (∀ (k : Nat) (pg : Page) (rid : String), (linkYear posts)[k]? = some pg →
        pg.prevpost = some rid ∨ pg.nextpost = some rid →
        ∃ q, q ∈ posts ∧ q.id = rid ∧ ∃ d, q.date = some d ∧ d.year = y) := by
  have hyear := groupYears_mem ps y posts hmem
  have hperm : (sortedByOrigin posts).Perm posts := List.mergeSort_perm posts _
  refine ⟨?_, hperm, ?_, ?_, hyear, ?_⟩
  · intro k p hp
    rw [linkYear_getElem?, hp]
    rfl
  · show (posts.mergeSort (fun a b => keyLe (sortkey_origin a) (sortkey_origin b))).Pairwise _
    exact @List.sorted_mergeSort Page
      (fun a b => keyLe (sortkey_origin a) (sortkey_origin b))
      (fun a b c hab hbc => keyLe_trans _ _ _ hab hbc)
      (fun a b => by
        rcases keyLe_total (sortkey_origin a) (sortkey_origin b) with h2 | h2 <;>
          simp [h2])
      posts
  · intro hnodup
    have hpair := mergeSort_pairwise_strict posts
      (fun a b => keyLe (sortkey_origin a) (sortkey_origin b))
      (fun a b c hab hbc => keyLe_trans _ _ _ hab hbc)
      (fun a b => by
        rcases keyLe_total (sortkey_origin a) (sortkey_origin b) with h2 | h2 <;>
          simp [h2])
      hnodup
    show (posts.mergeSort (fun a b => keyLe (sortkey_origin a) (sortkey_origin b))).Pairwise _
    refine List.Pairwise.imp ?_ hpair
    intro a b hab
    exact ⟨hab.1, fun hk => hab.2 (String.ext (congrArg Prod.snd hk))⟩
  · intro k pg rid hpg href
    rw [linkYear_getElem?] at hpg
    rcases Option.map_eq_some'.mp hpg with ⟨p, hp, rfl⟩
    have hfrom : ∃ (j : Nat) (q : Page),
        (sortedByOrigin posts)[j]? = some q ∧ q.id = rid := by
      rcases href with h | h
      · by_cases hk : k = 0
        · rw [if_pos hk] at h; cases h
        · rw [if_neg hk] at h
          rcases Option.map_eq_some'.mp h with ⟨q, hq, hq2⟩
          exact ⟨k - 1, q, hq, hq2⟩
      · rcases Option.map_eq_some'.mp h with ⟨q, hq, hq2⟩
        exact ⟨k + 1, q, hq, hq2⟩
    rcases hfrom with ⟨j, q, hq, hq2⟩
    rcases List.getElem?_eq_some.mp hq with ⟨hj, hjq⟩
    have hqmem : q ∈ posts := hperm.mem_iff.mp (hjq ▸ List.getElem_mem hj)
    exact ⟨q, hqmem, hq2, hyear.2 q hqmem⟩

/-- Witness for C7 on a single dated page. -/
theorem C7_neighbour_linking_witness :
    ((2021 : Int), [mkContent "2021/a" (some ⟨2021, 5⟩) none []])
        ∈ groupYears [mkContent "2021/a" (some ⟨2021, 5⟩) none []]
    ∧ ((∀ (k : Nat) (p : Page),
          (sortedByOrigin [mkContent "2021/a" (some ⟨2021, 5⟩) none []])[k]? = some p →
        (linkYear [mkContent "2021/a" (some ⟨2021, 5⟩) none []])[k]? = some
          { p with
            prevpost := if k = 0 then none
              else ((sortedByOrigin [mkContent "2021/a" (some ⟨2021, 5⟩) none []])[k - 1]?).map Page.id,
            nextpost := ((sortedByOrigin [mkContent "2021/a" (some ⟨2021, 5⟩) none []])[k + 1]?).map Page.id })
      ∧ (sortedByOrigin [mkContent "2021/a" (some ⟨2021, 5⟩) none []]).Perm
          [mkContent "2021/a" (some ⟨2021, 5⟩) none []]
      ∧ (sortedByOrigin [mkContent "2021/a" (some ⟨2021, 5⟩) none []]).Pairwise
          (fun a b => keyLe (sortkey_origin a) (sortkey_origin b) = true)
      ∧ (([mkContent "2021/a" (some ⟨2021, 5⟩) none []].map Page.id).Nodup →
          (sortedByOrigin [mkContent "2021/a" (some ⟨2021, 5⟩) none []]).Pairwise
            (fun a b => keyLe (sortkey_origin a) (sortkey_origin b) = true
              ∧ sortkey_origin a ≠ sortkey_origin b))
      ∧ ([mkContent "2021/a" (some ⟨2021, 5⟩) none []] ≠ ([] : List Page)
        ∧ ∀ q ∈ [mkContent "2021/a" (some ⟨2021, 5⟩) none []],
            ∃ d, q.date = some d ∧ d.year = (2021 : Int))
      ∧ (∀ (k : Nat) (pg : Page) (rid : String),
          (linkYear [mkContent "2021/a" (some ⟨2021, 5⟩) none []])[k]? = some pg →
          pg.prevpost = some rid ∨ pg.nextpost = some rid →
          ∃ q, q ∈ [mkContent "2021/a" (some ⟨2021, 5⟩) none []] ∧ q.id = rid
            ∧ ∃ d, q.date = some d ∧ d.year = (2021 : Int))) :=
  ⟨by decide,
    C7_neighbour_linking [mkContent "2021/a" (some ⟨2021, 5⟩) none []] 2021
      [mkContent "2021/a" (some ⟨2021, 5⟩) none []] (by decide)⟩

/-! ### Tag-map consistency (C3, C4) and the tag/id collision (C10) -/

/-- Claim C3: after any successful add sequence, every tag name referenced
by a content page has exactly one Tag page in the tag map (the key map has
no duplicate keys and binds the name to the Tag page's id), that Tag page's
tagged dict holds the content page's id, and the content page's tag mapping
resolves the name to that very Tag page object (the tag-map entry and the
page-map entry are the one shared object, keyed by the tag name). -/
theorem C3_bidirectional_tags (ps : List Page) (db : DB)
    (hWF : ∀ p, p ∈ ps → WF p)
    (h : DB.addAll DB.empty ps = .ok db) :
    (db.tags.map Prod.fst).Nodup
    ∧ ∀ p, p ∈ db.pages → p.kind = Kind.content → ∀ n, n ∈ p.tags →
      ∃ t, alookup db.tags n = some n ∧ plookup db.pages n = some t
        ∧ t.id = n ∧ t.kind = Kind.tagK ∧ t.name = n ∧ p.id ∈ t.tagged := by
  have hinv := addAll_inv ps DB.empty db hWF Inv_empty h
  refine ⟨hinv.1.tagsNodup, ?_⟩
  intro p hp hk n hn
  rcases hinv.2 p hp hk n hn with ⟨t, h1, h2, h3, h4, h5⟩
  exact ⟨t, h5, h1, (plookup_mem _ _ _ h1).2, h2, h3, h4⟩

/-- Witness for C3: one content page with one tag. -/
theorem C3_bidirectional_tags_witness :
    (∀ p, p ∈ [mkContent "a" none none ["x"]] → WF p)
    ∧ DB.addAll DB.empty [mkContent "a" none none ["x"]]
      = Except.ok (DB.mk
          [mkContent "a" none none ["x"],
           Page.mk "x" Kind.tagK none none [] "x" ["a"] none none]
          [("x", "x")])
    ∧ (((DB.mk
          [mkContent "a" none none ["x"],
           Page.mk "x" Kind.tagK none none [] "x" ["a"] none none]
          [("x", "x")]).tags.map Prod.fst).Nodup
      ∧ ∀ p, p ∈ (DB.mk
          [mkContent "a" none none ["x"],
           Page.mk "x" Kind.tagK none none [] "x" ["a"] none none]
          [("x", "x")]).pages → p.kind = Kind.content → ∀ n, n ∈ p.tags →
        ∃ t, alookup (DB.mk
            [mkContent "a" none none ["x"],
             Page.mk "x" Kind.tagK none none [] "x" ["a"] none none]
            [("x", "x")]).tags n = some n
          ∧ plookup (DB.mk
            [mkContent "a" none none ["x"],
             Page.mk "x" Kind.tagK none none [] "x" ["a"] none none]
            [("x", "x")]).pages n = some t
          ∧ t.id = n ∧ t.kind = Kind.tagK ∧ t.name = n ∧ p.id ∈ t.tagged) :=
  ⟨by decide, rfl,
    C3_bidirectional_tags [mkContent "a" none none ["x"]] _ (by decide) rfl⟩

/-- Claim C4 (amended): select(tag=T) returns exactly the dated content
pages carrying T, and the Tag page's tagged dict holds exactly the ids of
all content pages carrying T — dated or not; the two agree exactly on the
dated subset (the claim's unqualified identity fails for undated tagged
pages, see the counterexample). -/
theorem C4_select_tag (ps : List Page) (db : DB)
    (hWF : ∀ p, p ∈ ps → WF p)
    (h : DB.addAll DB.empty ps = .ok db) (T : String) :
    (∀ p : Page, p ∈ DB.select db none true (some T) false none ↔
      p ∈ db.pages ∧ p.date.isSome = true ∧ T ∈ p.tags)
    ∧ (∀ p : Page, p ∈ DB.select db none true (some T) false none →
        p.kind = Kind.content)
    ∧ (∀ t : Page, plookup db.pages T = some t → t.kind = Kind.tagK →
        ∀ pid : String, pid ∈ t.tagged ↔
          ∃ p, p ∈ db.pages ∧ p.id = pid ∧ p.kind = Kind.content ∧ T ∈ p.tags) := by
  have hinv := addAll_inv ps DB.empty db hWF Inv_empty h
  refine ⟨?_, ?_, ?_⟩
  · intro p
    have hiff := select_none_mem_iff db (some T) false none p
    constructor
    · intro hp
      rcases hiff.mp hp with ⟨a, b, c⟩
      exact ⟨a, b, c T rfl⟩
    · rintro ⟨a, b, c⟩
      exact hiff.mpr ⟨a, b, fun t ht => by cases ht; exact c⟩
  · intro p hp
    rcases (select_none_mem_iff db (some T) false none p).mp hp with ⟨hmem, hdated, -⟩
    exact hinv.1.dated p hmem hdated
  · intro t ht htk pid
    constructor
    · intro hpid
      have htmem := (plookup_mem _ _ _ ht).1
      have htid : t.id = T := (plookup_mem _ _ _ ht).2
      rcases hinv.1.bwd t htmem htk pid hpid with ⟨p, hp1, hp2, hp3⟩
      have htname : t.name = T := by
        rcases hinv.1.tagpage t htmem htk with ⟨hid, -⟩
        rw [← hid, htid]
      refine ⟨p, (plookup_mem _ _ _ hp1).1, (plookup_mem _ _ _ hp1).2, hp2, ?_⟩
      rw [← htname]
      exact hp3
    · rintro ⟨p, hpmem, rfl, hpk, hpT⟩
      rcases hinv.2 p hpmem hpk T hpT with ⟨t2, h1, h2, h3, h4, h5⟩
      rw [ht] at h1
      cases h1
      exact h4

/-- Witness for C4 on a dated tagged page. -/
theorem C4_select_tag_witness :
    ((∀ p, p ∈ [mkContent "2021/a" (some ⟨2021, 5⟩) none ["x"]] → WF p)
      ∧ DB.addAll DB.empty [mkContent "2021/a" (some ⟨2021, 5⟩) none ["x"]]
        = Except.ok (DB.mk
            [mkContent "2021/a" (some ⟨2021, 5⟩) none ["x"],
             Page.mk "x" Kind.tagK none none [] "x" ["2021/a"] none none]
            [("x", "x")]))
    ∧ ((∀ p : Page, p ∈ DB.select (DB.mk
            [mkContent "2021/a" (some ⟨2021, 5⟩) none ["x"],
             Page.mk "x" Kind.tagK none none [] "x" ["2021/a"] none none]
            [("x", "x")]) none true (some "x") false none ↔
          p ∈ (DB.mk
            [mkContent "2021/a" (some ⟨2021, 5⟩) none ["x"],
             Page.mk "x" Kind.tagK none none [] "x" ["2021/a"] none none]
            [("x", "x")]).pages ∧ p.date.isSome = true ∧ "x" ∈ p.tags)
      ∧ (∀ p : Page, p ∈ DB.select (DB.mk
            [mkContent "2021/a" (some ⟨2021, 5⟩) none ["x"],
             Page.mk "x" Kind.tagK none none [] "x" ["2021/a"] none none]
            [("x", "x")]) none true (some "x") false none →
          p.kind = Kind.content)
      ∧ (∀ t : Page, plookup (DB.mk
            [mkContent "2021/a" (some ⟨2021, 5⟩) none ["x"],
             Page.mk "x" Kind.tagK none none [] "x" ["2021/a"] none none]
            [("x", "x")]).pages "x" = some t → t.kind = Kind.tagK →
          ∀ pid : String, pid ∈ t.tagged ↔
            ∃ p, p ∈ (DB.mk
              [mkContent "2021/a" (some ⟨2021, 5⟩) none ["x"],
               Page.mk "x" Kind.tagK none none [] "x" ["2021/a"] none none]
              [("x", "x")]).pages ∧ p.id = pid ∧ p.kind = Kind.content
              ∧ "x" ∈ p.tags)) :=
  ⟨⟨by decide, rfl⟩,
    C4_select_tag [mkContent "2021/a" (some ⟨2021, 5⟩) none ["x"]] _ (by decide) rfl "x"⟩

/-- Claim C4 (counterexample): an undated content page carrying tag "x" is
registered in the Tag page's tagged dict but select(tag="x") — which
filters to dated pages first — returns the empty tuple, so select(tag=T)
neither returns every content page carrying T nor matches the tagged
membership. -/
theorem C4_undated_tagged_mismatch :
    DB.addAll DB.empty [mkContent "a" none none ["x"]]
      = Except.ok (DB.mk
          [mkContent "a" none none ["x"],
           Page.mk "x" Kind.tagK none none [] "x" ["a"] none none]
          [("x", "x")])
    ∧ DB.select (DB.mk
          [mkContent "a" none none ["x"],
           Page.mk "x" Kind.tagK none none [] "x" ["a"] none none]
          [("x", "x")]) none true (some "x") false none = []
    ∧ "a" ∈ (Page.mk "x" Kind.tagK none none [] "x" ["a"] none none).tagged
    ∧ mkContent "a" none none ["x"] ∈ (DB.mk
          [mkContent "a" none none ["x"],
           Page.mk "x" Kind.tagK none none [] "x" ["a"] none none]
          [("x", "x")]).pages
    ∧ "x" ∈ (mkContent "a" none none ["x"]).tags := by
  refine ⟨rfl, ?_, by decide, by decide, by decide⟩
  rw [List.eq_nil_iff_forall_not_mem]
  intro p hp
  rcases (select_none_mem_iff _ (some "x") false none p).mp hp with ⟨hmem, hdated, -⟩
  rcases List.mem_cons.mp hmem with rfl | hmem2
  · simp [mkContent] at hdated
  · simp at hmem2
    subst hmem2
    simp at hdated

theorem addTags_collision (pid : String) (ns : List String) (db : DB) (n : String)
    (hn : n ∈ ns) (hpage : (plookup db.pages n).isSome = true)
    (htag : alookup db.tags n = none) :
    ∃ c, DB.addTags db pid ns = .error ("duplicate page id: " ++ c) := by
  induction ns generalizing db with
  | nil => cases hn
  | cons m rest ih =>
    unfold DB.addTags
    by_cases hc : (alookup db.tags m).isSome
    · simp only [hc, if_pos]
      have hmn : m ≠ n := by
        intro he
        rw [he, htag] at hc
        cases hc
      have hn2 : n ∈ rest := by
        rcases List.mem_cons.mp hn with rfl | h2
        · exact absurd rfl hmn
        · exact h2
      refine ih (db.tagAdd m pid) hn2 ?_ ?_
      · obtain ⟨q, hq⟩ := Option.isSome_iff_exists.mp hpage
        rcases plookup_tagAdd_some db m pid n q hq with ⟨q2, hq2, -⟩
        rw [hq2]
        rfl
      · rw [tagAdd_tags]
        exact htag
    · simp only [hc, Bool.false_eq_true, if_false]
      cases hins : db.insertTag (mkTag m) with
      | error e =>
        unfold DB.insertTag at hins
        by_cases hdup : (plookup db.pages (mkTag m).id).isSome
        · rw [if_pos hdup] at hins
          cases hins
          exact ⟨(mkTag m).id, rfl⟩
        · rw [if_neg hdup] at hins
          cases hins
      | ok dbt =>
        obtain ⟨hfresh0, hpages, htagsmk⟩ := insertTag_ok _ _ _ hins
        have hmn : m ≠ n := by
          intro he
          have hfr : plookup db.pages m = none := hfresh0
          rw [← he] at hpage
          rw [hfr] at hpage
          cases hpage
        have hn2 : n ∈ rest := by
          rcases List.mem_cons.mp hn with rfl | h2
          · exact absurd rfl hmn
          · exact h2
        refine ih (dbt.tagAdd m pid) hn2 ?_ ?_
        · obtain ⟨q, hq⟩ := Option.isSome_iff_exists.mp hpage
          have hqt : plookup dbt.pages n = some q := by
            rw [hpages]
            exact plookup_append_left _ _ _ _ hq
          rcases plookup_tagAdd_some dbt m pid n q hqt with ⟨q2, hq2, -⟩
          rw [hq2]
          rfl
        · rw [tagAdd_tags, htagsmk]
          simp only [mkTag]
          rw [alookup_ainsert, if_neg hmn]
          exact htag

/-- Claim C10: a content page declaring a tag whose name equals the id of a
page already in the index makes the lazily created Tag page trip the
duplicate-id check inside the same add call, halting the build fatally even
though the page's own id is fresh. -/
theorem C10_tag_id_collision (db : DB) (p : Page) (n : String)
    (hk : p.kind = Kind.content)
    (hfresh : plookup db.pages p.id = none)
    (hn : n ∈ p.tags)
    (hpageN : (plookup db.pages n).isSome = true)
    (htagN : alookup db.tags n = none) :
    ∃ c, DB.add db p = .error ("duplicate page id: " ++ c) := by
  unfold DB.add
  have hkne : ¬(p.kind = Kind.tagK) := by
    rw [hk]
    intro hcontra
    cases hcontra
  rw [if_neg hkne, hfresh, hk]
  show ∃ c, DB.addTags (DB.mk (db.pages ++ [p]) db.tags) p.id p.tags
    = Except.error ("duplicate page id: " ++ c)
  refine addTags_collision p.id p.tags _ n hn ?_ ?_
  · obtain ⟨q, hq⟩ := Option.isSome_iff_exists.mp hpageN
    show (plookup (db.pages ++ [p]) n).isSome = true
    rw [plookup_append_left _ _ _ _ hq]
    rfl
  · exact htagN

/-- Witness for C10: a fresh page whose tag name equals an existing page
id. -/
theorem C10_tag_id_collision_witness :
    ((mkContent "post" none none ["intro"]).kind = Kind.content
      ∧ plookup (DB.mk [mkContent "intro" none none []] []).pages
          (mkContent "post" none none ["intro"]).id = none
      ∧ "intro" ∈ (mkContent "post" none none ["intro"]).tags
      ∧ (plookup (DB.mk [mkContent "intro" none none []] []).pages "intro").isSome = true
      ∧ alookup (DB.mk [mkContent "intro" none none []] []).tags "intro" = none)
    ∧ ∃ c, DB.add (DB.mk [mkContent "intro" none none []] [])
        (mkContent "post" none none ["intro"])
      = Except.error ("duplicate page id: " ++ c) :=
  ⟨⟨by decide, by decide, by decide, by decide, by decide⟩,
    C10_tag_id_collision (DB.mk [mkContent "intro" none none []] [])
      (mkContent "post" none none ["intro"]) "intro"
      (by decide) (by decide) (by decide) (by decide) (by decide)⟩

end Pilcrow
